import Mathlib

/-!
# The `buf` byte-buffer manager of `buf.c`

A shallow embedding of `src/buf.c`: a fixed-size byte buffer that can be used
linearly (`buf_append`, `buf_shift`) or circularly (`buf_append_circ`,
`buf_consume`).

Conventions of the embedding

* `size_t` is a 64-bit unsigned integer: every `size_t` operation of the source
  is written with `sz_add` / `sz_sub`, which reduce modulo `2 ^ 64`.
* The backing array `b->data` is the list `buf.data`; offsets are relative to
  `b->data`.  A `memcpy` / `memmove` / `memset` that touches a byte outside the
  array is undefined behaviour in C; the embedding stops there with
  `Fault.out_of_bounds`.
* A call either returns (`Res.ok ret b`) or is abandoned (`Res.fault f b`);
  both carry the contents of `*b` at that moment.
* The diagnostic output (`printf`, `dump_chars`, `LOGF`) is not modelled.
-/

namespace Buf

/-- A byte (`u8` of the source). -/
abbrev u8 : Type := Fin 256

/-- The number of values of `size_t` (64 bit). -/
def SIZE_MOD : Nat := 18446744073709551616

/-- The largest size of a C object (`PTRDIFF_MAX`, 64 bit). -/
def PTRDIFF_MAX : Nat := 9223372036854775807

/-- Addition of `size_t`. -/
def sz_add (a b : Nat) : Nat := (a + b) % SIZE_MOD

/-- Subtraction of `size_t` (wraps around below zero). -/
def sz_sub (a b : Nat) : Nat := (a + (SIZE_MOD - b % SIZE_MOD)) % SIZE_MOD

/-- The `buf` structure: `data` is the backing array, `buflen` the number of
bytes available for storage, `start` the offset where the data begins and
`len` how much data is held after `start`. -/
structure buf where
  data : List u8
  buflen : Nat
  start : Nat
  len : Nat
deriving DecidableEq

/-- Why a call was abandoned. -/
inductive Fault where
  /-- An `ASSERT(...)` or `assert(...)` did not hold. -/
  | assertion
  /-- The function called `abort()`. -/
  | aborted
  /-- A byte outside the backing array was read or written. -/
  | out_of_bounds
  /-- The right operand of `%` was zero. -/
  | div_by_zero
deriving DecidableEq

/-- Outcome of a call on a `buf`: it returned `ret`, or it was abandoned; in
both cases `b` is the content of the structure at that point. -/
inductive Res (α : Type) where
  | ok (ret : α) (b : buf)
  | fault (f : Fault) (b : buf)
deriving DecidableEq

/-- Sequencing: continue with `k` when the first step returned. -/
def Res.andThen {α β : Type} (r : Res α) (k : α → buf → Res β) : Res β :=
  match r with
  | .ok a b => k a b
  | .fault f b => .fault f b

/-- Modelled from the spec: the macro `ASSERT` of `util.h` (not among the
sources), a fatal assertion: the call is abandoned when the condition is
false.  The lower-case `assert` of `<assert.h>` is modelled the same way. -/
def ASSERT (c : Bool) (b : buf) : Res Unit :=
  if c then .ok () b else .fault .assertion b

/-- Modelled from the spec: the macro `buf_len` of `buf.h` (not among the
sources), the query `len()`. -/
def buf_len (b : buf) : Nat := b.len

/-- Modelled from the spec: the macro `buf_buflen` of `buf.h` (not among the
sources), the query `capacity()`. -/
def buf_buflen (b : buf) : Nat := b.buflen

/-- Modelled from the spec: the macro `buf_space` of `buf.h` (not among the
sources), the query `space()`, that is `capacity - length`. -/
def buf_space (b : buf) : Nat := sz_sub b.buflen b.len

/-- Modelled from the spec: the macro `buf_end` of `buf.h` (not among the
sources), the position immediately following the current data,
`start + length` (not wrapped), as an offset from `b->data`. -/
def buf_end (b : buf) : Nat := sz_add b.start b.len

/-- The call `memcpy(b->data + dst, src, n)`: the offsets `dst .. dst + n - 1` of
the array are overwritten with the first `n` bytes of `src`. -/
def memcpy (b : buf) (dst : Nat) (src : List u8) (n : Nat) : Res Unit :=
  if n = 0 then .ok () b
  else if dst + n ≤ b.data.length ∧ n ≤ src.length then
    .ok () { b with data := b.data.take dst ++ src.take n ++ b.data.drop (dst + n) }
  else .fault .out_of_bounds b

/-- The call `memmove(b->data, b->data + src, n)`: the bytes at offsets
`src .. src + n - 1` are copied to the offsets `0 .. n - 1` (overlap is
allowed). -/
def memmove0 (b : buf) (src : Nat) (n : Nat) : Res Unit :=
  if n = 0 then .ok () b
  else if src + n ≤ b.data.length then
    .ok () { b with data := (b.data.drop src).take n ++ b.data.drop n }
  else .fault .out_of_bounds b

/-- The call `memset(b->data, c, n)`. -/
def memset (b : buf) (c : u8) (n : Nat) : Res Unit :=
  if n ≤ b.data.length then
    .ok () { b with data := List.replicate n c ++ b.data.drop n }
  else .fault .out_of_bounds b

/-- `buf_init(b, buf, buflen)`; `b` is the previous (arbitrary) content of the
structure and `mem` the array handed over by the caller.  `ASSERT(buf)` checks
for a null pointer, which an array cannot be. -/
def buf_init (b : buf) (mem : List u8) (buflen : Nat) : Res Unit :=
  (ASSERT (buflen != 0) b).andThen fun _ b =>
  memset { b with data := mem, buflen := buflen, start := 0, len := 0 } 255 buflen

/-- `buf_clr`. -/
def buf_clr (b : buf) : buf := { b with start := 0, len := 0 }

/-- `buf_data_contig`: how many contiguous bytes lie after `b->start`. -/
def buf_data_contig (b : buf) : Nat :=
  if sz_add b.start b.len > b.buflen then sz_sub b.buflen b.start else b.len

/-- `buf_space_contig`: how much contiguous space is at the "end". -/
def buf_space_contig (b : buf) : Nat :=
  let contig := sz_add b.start b.len
  if contig ≤ b.buflen then sz_sub b.buflen contig
  else sz_sub b.start (sz_sub contig b.buflen)

/-- `buf_shift`. -/
def buf_shift (b : buf) : Res Unit :=
  (ASSERT (decide (b.len ≤ b.buflen)) b).andThen fun _ b =>
  (ASSERT (decide (b.start < b.buflen)) b).andThen fun _ b =>
  (if b.len > 0 ∧ b.start > 0 then memmove0 b b.start b.len else .ok () b).andThen fun _ b =>
  .ok () { b with start := 0 }

/-- `buf_append(b, s, len)`, the pair `(s, len)` being the list `s`. -/
def buf_append (b : buf) (s : List u8) : Res Nat :=
  let len := s.length
  (if len > buf_space b then
      (if b.start != 0 then buf_shift b else .ok () b).andThen fun _ b =>
      ASSERT (decide (len ≤ buf_space b)) b
    else .ok () b).andThen fun _ b =>
  (memcpy b (buf_end b) s len).andThen fun _ b =>
  let b := { b with len := sz_add b.len len }
  (ASSERT (decide (b.len < b.buflen)) b).andThen fun _ b =>
  .ok len b

/-- `buf_append_circ(b, s, len)`, the pair `(s, len)` being the list `s`. -/
def buf_append_circ (b : buf) (s : List u8) : Res Nat :=
  let len := s.length
  let b := if sz_add (buf_len b) len > buf_buflen b then buf_clr b else b
  let contig := buf_space_contig b
  let endpos := sz_add b.start b.len
  (if len ≤ contig then memcpy b endpos s len
    else (memcpy b endpos s contig).andThen fun _ b =>
      memcpy b 0 (s.drop contig) (sz_sub len contig)).andThen fun _ b =>
  let b := { b with len := sz_add b.len len }
  (ASSERT (decide (b.len ≤ b.buflen)) b).andThen fun _ b =>
  (ASSERT (decide (b.start < b.buflen)) b).andThen fun _ b =>
  .ok len b

/-- `buf_consume(b, len)`. -/
def buf_consume (b : buf) (len : Nat) : Res Unit :=
  (ASSERT (decide (len ≤ buf_len b)) b).andThen fun _ b =>
  let b := { b with start := sz_add b.start len }
  if b.buflen = 0 then .fault .div_by_zero b
  else
    let b := { b with start := b.start % b.buflen }
    let b := { b with len := sz_sub b.len len }
    (ASSERT (decide (b.start < b.buflen)) b).andThen fun _ b =>
    .ok () b

/-- `buf_lengthen(b, len)`. -/
def buf_lengthen (b : buf) (len : Nat) : Res Unit :=
  if sz_add b.len len > b.buflen then .fault .aborted b
  else .ok () { b with len := sz_add b.len len }

/-- Invariants 1 and 2 of the data model: `start < capacity` and
`length ≤ capacity`. -/
def Inv (b : buf) : Prop := b.start < b.buflen ∧ b.len ≤ b.buflen

instance (b : buf) : Decidable (Inv b) := by unfold Inv; infer_instance

/-- The structure describes a real array: `data` has exactly `buflen` bytes
and is not larger than a C object can be. -/
def WF (b : buf) : Prop := b.data.length = b.buflen ∧ b.buflen ≤ PTRDIFF_MAX

instance (b : buf) : Decidable (WF b) := by unfold WF; infer_instance

/-- The content of an uninitialised `buf` structure in the examples. -/
def junk : buf := ⟨[], 0, 0, 0⟩

/-- A fresh buffer of three bytes, as `buf_init` leaves it. -/
def fresh3 : buf := ⟨[255, 255, 255], 3, 0, 0⟩

/-- A wrapped buffer of three bytes: the data `Z`, `A` lies at offsets 2 and 0
(reached from `fresh3` by appending `XYZ`, consuming 2 and appending `A`). -/
def wrapped3 : buf := ⟨[65, 89, 90], 3, 2, 2⟩

/-- A linear buffer of three bytes holding one byte at offset 1 (reached from
`fresh3` by appending two bytes and consuming one). -/
def linear3 : buf := ⟨[1, 2, 255], 3, 1, 1⟩

/-- The state `linear3` with two more bytes of memory behind the three bytes
of the buffer. -/
def linear3_slack : buf := ⟨[1, 2, 255, 0, 0], 3, 1, 1⟩

/-- The bytes a reader sees in one contiguous read: the `buf_data_contig(b)`
bytes found at `b->data + b->start`. -/
def contig_bytes (b : buf) : List u8 := (b.data.drop b.start).take (buf_data_contig b)

/-- One step of the reader of the round-trip property: take the contiguous
bytes, then `buf_consume` them.  The bytes read are returned. -/
def read_consume (b : buf) : Res (List u8) :=
  (buf_consume b (buf_data_contig b)).andThen fun _ b' => .ok (contig_bytes b) b'

/-- The physical offset `o` belongs to the valid region: it is
`(start + i) mod buflen` for some `i < len`. -/
def valid_offset (b : buf) (o : Nat) : Prop := ∃ i, i < b.len ∧ o = (b.start + i) % b.buflen

instance (b : buf) (o : Nat) : Decidable (valid_offset b o) := by
  unfold valid_offset; infer_instance

/-- A linear buffer of five bytes holding one byte at offset 2 (reached from a
fresh buffer by appending three bytes and consuming two). -/
def linear5 : buf := ⟨[1, 2, 3, 255, 255], 5, 2, 1⟩

/-- A linear buffer of four bytes holding three bytes at offset 1: moving them
to offset 0 overlaps source and destination. -/
def linear4 : buf := ⟨[0, 1, 2, 3], 4, 1, 3⟩

/-- A linear buffer of three bytes whose data ends at the physical end
(start 1, len 2), as in `test_append_circ` after `buf_consume(&b, 1)`. -/
def at_end3 : buf := ⟨[88, 89, 90], 3, 1, 2⟩

/-- A full buffer of three bytes at offset 0 (a fresh buffer after
`buf_append_circ` of `ABC`). -/
def full3 : buf := ⟨[65, 66, 67], 3, 0, 3⟩

/-- An empty buffer of three bytes whose `start` is 2 (reached from a fresh
buffer by appending two bytes and consuming them). -/
def empty_at2 : buf := ⟨[88, 89, 255], 3, 2, 0⟩

/-- A linear buffer of four bytes holding two bytes at offset 0 (a fresh
buffer after an append of two bytes). -/
def half4 : buf := ⟨[1, 2, 255, 255], 4, 0, 2⟩

/-- `buf_after(b, ptr)`; `ptr` is the offset of the pointer from `b->data` and
`diff` a `ptrdiff_t`. -/
def buf_after (b : buf) (ptr : Int) : Res Nat :=
  let diff : Int := ptr - (b.start : Int)
  (ASSERT (decide (diff ≥ 0)) b).andThen fun _ b =>
  (ASSERT (decide (diff.toNat % SIZE_MOD ≤ b.len)) b).andThen fun _ b =>
  let after := sz_sub b.len (diff.toNat % SIZE_MOD)
  .ok after b

/-- `buf_append(b, s, len)` with the macro `buf_space` of `buf.h` (not among
the sources) as the parameter `space`; the pair `(s, len)` is the list `s`. -/
def buf_append_with (space : buf → Nat) (b : buf) (s : List u8) : Res Nat :=
  let len := s.length
  (if len > space b then
      (if b.start != 0 then buf_shift b else .ok () b).andThen fun _ b =>
      ASSERT (decide (len ≤ space b)) b
    else .ok () b).andThen fun _ b =>
  (memcpy b (buf_end b) s len).andThen fun _ b =>
  let b := { b with len := sz_add b.len len }
  (ASSERT (decide (b.len < b.buflen)) b).andThen fun _ b =>
  .ok len b

end Buf

/-! # Common conventions for the other programs

The loops of the remaining programs are embedded as recursive functions with a
bound `fuel` on the number of iterations; an access outside an array is a
`bad_access`. -/

/-- Outcome of running a function whose loops are given a bound on the number
of iterations: it returned, it touched memory outside an object, or the bound
was reached before the loop ended. -/
inductive Run (α : Type) where
  | done (a : α)
  | bad_access
  | out_of_fuel
deriving DecidableEq

/-- Sequencing of two steps. -/
def Run.bind {α β : Type} (r : Run α) (k : α → Run β) : Run β :=
  match r with
  | .done a => k a
  | .bad_access => .bad_access
  | .out_of_fuel => .out_of_fuel

/-- Reading the element `m[i]` of an array. -/
def Run.load {α : Type} (m : List α) (i : Int) : Run α :=
  if 0 ≤ i then
    match m[i.toNat]? with
    | some x => .done x
    | none => .bad_access
  else .bad_access

/-- Writing the element `m[i]` of an array. -/
def Run.store {α : Type} (m : List α) (i : Int) (x : α) : Run (List α) :=
  if 0 ≤ i ∧ i < m.length then .done (m.set i.toNat x) else .bad_access


/-! # `strrev.c` -/

namespace Strrev

/-- A `char`. -/
abbrev char : Type := Fin 256

/-- The loop
`while (i <= halfway) { dst[i] = src[len-1-i]; dst[len-1-i] = src[i]; i++; }`
which ends `obvious` and the unrolled variants. -/
def swap_loop (src : List char) (len halfway : Int) : Nat → Int → List char → Run (List char)
  | 0, _, _ => .out_of_fuel
  | fuel + 1, i, dst =>
    if i ≤ halfway then
      (Run.load src (len - 1 - i)).bind fun a =>
      (Run.store dst i a).bind fun dst =>
      (Run.load src i).bind fun b =>
      (Run.store dst (len - 1 - i) b).bind fun dst =>
      swap_loop src len halfway fuel (i + 1) dst
    else .done dst

/-- `obvious(dst, src, len)`; `fuel` bounds the number of iterations, and the
result is the content of `dst` after the call. -/
def obvious (fuel : Nat) (dst src : List char) (len : Nat) : Run (List char) :=
  if len ≠ 0 then
    let i : Int := 0
    let halfway : Int := ((len / 2 : Nat) : Int)
    swap_loop src len halfway fuel i dst
  else .done dst

/-- The load `*(uint64_t *)(m + a)`: the eight bytes at offsets `a .. a + 7`,
in memory order. -/
def load64 (m : List char) (a : Int) : Run (List char) :=
  if 0 ≤ a ∧ a + 8 ≤ m.length then .done ((m.drop a.toNat).take 8) else .bad_access

/-- `bswap64`: the order of the eight bytes of a 64-bit word is reversed. -/
def bswap64 (w : List char) : List char := w.reverse

/-- The store `*(uint64_t *)(m + a) = w`: the eight bytes of `w` go to the
offsets `a .. a + 7`, in memory order. -/
def store64 (m : List char) (a : Int) (w : List char) : Run (List char) :=
  if 0 ≤ a ∧ a + 8 ≤ m.length then
    .done (m.take a.toNat ++ w ++ m.drop (a.toNat + 8))
  else .bad_access

/-- The statement `*(uint64_t *)(dst+d) = bswap64(*(uint64_t *)(src+s));`. -/
def copy64 (dst src : List char) (d s : Int) : Run (List char) :=
  (load64 src s).bind fun w => store64 dst d (bswap64 w)

/-- The body of the first loop of `byte64_w64`: fifteen 8-byte copies. -/
def byte64_w64_block (dst src : List char) (len i : Int) : Run (List char) :=
  (copy64 dst src (len - 56 - i) (i + 48)).bind fun dst =>
  (copy64 dst src (len - 48 - i) (i + 40)).bind fun dst =>
  (copy64 dst src (len - 40 - i) (i + 32)).bind fun dst =>
  (copy64 dst src (len - 32 - i) (i + 24)).bind fun dst =>
  (copy64 dst src (len - 24 - i) (i + 16)).bind fun dst =>
  (copy64 dst src (len - 16 - i) (i + 8)).bind fun dst =>
  (copy64 dst src (len - 8 - i) i).bind fun dst =>
  (copy64 dst src i (len - 8 - i)).bind fun dst =>
  (copy64 dst src (i + 8) (len - 16 - i)).bind fun dst =>
  (copy64 dst src (i + 16) (len - 24 - i)).bind fun dst =>
  (copy64 dst src (i + 24) (len - 32 - i)).bind fun dst =>
  (copy64 dst src (i + 32) (len - 40 - i)).bind fun dst =>
  (copy64 dst src (i + 40) (len - 48 - i)).bind fun dst =>
  (copy64 dst src (i + 48) (len - 56 - i)).bind fun dst =>
  copy64 dst src (i + 56) (len - 64 - i)

/-- The first loop of `byte64_w64`:
`while (i <= halfway-64) { ...; i += 32; }`; the result is `dst` and `i`. -/
def byte64_w64_loop (src : List char) (len halfway : Int) :
    Nat → Int → List char → Run (List char × Int)
  | 0, _, _ => .out_of_fuel
  | fuel + 1, i, dst =>
    if i ≤ halfway - 64 then
      (byte64_w64_block dst src len i).bind fun dst =>
      byte64_w64_loop src len halfway fuel (i + 32) dst
    else .done (dst, i)

/-- `byte64_w64(dst, src, len)`; `fuel` bounds the number of iterations of each
loop, and the result is the content of `dst` after the call. -/
def byte64_w64 (fuel : Nat) (dst src : List char) (len : Nat) : Run (List char) :=
  if len ≠ 0 then
    let i : Int := 0
    let halfway : Int := ((len / 2 : Nat) : Int)
    (byte64_w64_loop src len halfway fuel i dst).bind fun r =>
    swap_loop src len halfway fuel r.2 r.1
  else .done dst

/-- The state of `dst` when the loops have handled the offsets below `i` and
the offsets from `len - i` on: these bytes have their final value (that of the
target content `T`), the others are arbitrary. -/
def Settled (T : List char) (len i : Nat) (d : List char) : Prop :=
  d.length = T.length ∧ ∀ k, (k < i ∨ len ≤ k + i) → d[k]? = T[k]?

/-- A source string of 130 bytes, long enough for the unrolled loop of
`byte64_w64` to run. -/
def sample_src : List char := (List.range 130).map fun i => Fin.ofNat i

/-- A destination of 131 bytes: 130 bytes and a guard byte behind them. -/
def sample_dst : List char := List.replicate 130 0 ++ [127]

end Strrev

/-! # `abs.c` -/

namespace Abs

/-- The value of an `int` expression whose mathematical value is `x`: the
result is reduced to 32 bits, two's complement (what the x86 instructions do
where C leaves signed overflow undefined). -/
def wrap (x : Int) : Int := (x + 2147483648) % 4294967296 - 2147483648

/-- `naive_abs`. -/
def naive_abs (i : Int) : Int :=
  if i < 0 then wrap (-i) else i

/-- `mask_abs`: `sizeof(int) * CHAR_BIT - 1` is 31 and `>>` on a negative
`int` is the arithmetic shift. -/
def mask_abs (a : Int) : Int :=
  let mask := Int.shiftRight a 31
  Int.xor (wrap (a + mask)) mask

end Abs

/-! # `minmax.c` -/

namespace Minmax

/-- The number of values of `unsigned` (32 bit). -/
def UINT_MOD : Nat := 4294967296

/-- The loop `for (i = 1; i < len; i++) { ... }` of `obvious`; the counter `i`
is an `unsigned`, `len` a `size_t`; `in` and `ax` are the running minimum and
maximum. -/
def obvious_loop (n : List Int) (len : Nat) : Nat → Nat → Int → Int → Run (Int × Int)
  | 0, _, _, _ => .out_of_fuel
  | fuel + 1, i, mn, ax =>
    if i < len then
      (Run.load n i).bind fun x =>
      let mn := if x < mn then x else mn
      let ax := if x > ax then x else ax
      obvious_loop n len fuel ((i + 1) % UINT_MOD) mn ax
    else .done (mn, ax)

/-- `obvious(n, len, &min, &max)`; `min` and `max` are the values of `*min` and
`*max` before the call and the result is the pair of their values after it;
`fuel` bounds the number of iterations. -/
def obvious (fuel : Nat) (n : List Int) (len : Nat) (min max : Int) : Run (Int × Int) :=
  if len ≠ 0 then
    (Run.load n 0).bind fun n0 =>
    obvious_loop n len fuel 1 n0 n0
  else .done (min, max)

/-- The loop of `nonbranching`; `x` is the array `int x[4]`. -/
def nonbranching_loop (n : List Int) (len : Nat) : Nat → Nat → List Int → Run (List Int)
  | 0, _, _ => .out_of_fuel
  | fuel + 1, i, x =>
    if i < len then
      (Run.load n i).bind fun ni =>
      (Run.load x 3).bind fun x3 =>
      (Run.store x (2 + (if ni > x3 then 1 else 0)) ni).bind fun x =>
      (Run.load n i).bind fun ni =>
      (Run.load x 0).bind fun x0 =>
      (Run.store x (1 - (if ni < x0 then 1 else 0)) ni).bind fun x =>
      nonbranching_loop n len fuel ((i + 1) % UINT_MOD) x
    else .done x

/-- `nonbranching(n, len, &min, &max)`, with the conventions of `obvious`. -/
def nonbranching (fuel : Nat) (n : List Int) (len : Nat) (min max : Int) : Run (Int × Int) :=
  if len ≠ 0 then
    (Run.load n 0).bind fun n0 =>
    (nonbranching_loop n len fuel 1 [n0, n0, n0, n0]).bind fun x =>
    (Run.load x 0).bind fun x0 =>
    (Run.load x 3).bind fun x3 =>
    .done (x0, x3)
  else .done (min, max)

/-- The pair `(lo, hi)` is the minimum and the maximum of the elements of `n`. -/
def IsMinMax (n : List Int) (r : Int × Int) : Prop :=
  r.1 ∈ n ∧ r.2 ∈ n ∧ ∀ x ∈ n, r.1 ≤ x ∧ x ≤ r.2

end Minmax

/-! # `kate-trim-my-rtrim.c` -/

namespace Rtrim

/-- A `char`, seen as the value of `(unsigned char) c`. -/
abbrev char : Type := Fin 256

/-- Modelled from the spec: `isspace` of `<ctype.h>` (not among the sources),
in the C locale: space, `\t`, `\n`, `\v`, `\f` and `\r`. -/
def isspace (c : char) : Bool := c.val == 32 || (9 ≤ c.val && c.val ≤ 13)

/-- `strlen(s)`: the number of characters before the first NUL; a bad access
when the array holds no NUL. -/
def strlen : List char → Run Nat
  | [] => .bad_access
  | c :: cs => if c = 0 then .done 0 else (strlen cs).bind fun n => .done (n + 1)

/-- The loop `while (p >= s && isspace((unsigned char) *p)) p--;` of `rtrim`;
`p` is the offset of the pointer from `s`. -/
def rtrim_scan (s : List char) : Nat → Int → Run Int
  | 0, _ => .out_of_fuel
  | fuel + 1, p =>
    if p ≥ 0 then
      (Run.load s p).bind fun c =>
        if isspace c then rtrim_scan s fuel (p - 1) else .done p
    else .done p

/-- `rtrim(s)`: the function returns the pointer `s` itself, so the result is
the content of the array `s` after the call; `e` is the variable `end` and
`fuel` bounds the number of iterations. -/
def rtrim (fuel : Nat) (s : List char) : Run (List char) :=
  (strlen s).bind fun n =>
  let p : Int := (n : Int) - 1
  let e : Int := p
  (rtrim_scan s fuel p).bind fun p =>
  if p ≠ e then Run.store s p 0 else .done s

/-- The string held by an array: the characters before the first NUL. -/
def cstr (s : List char) : List char := s.takeWhile (· ≠ 0)

end Rtrim

/-! # `remchr.c` -/

namespace Remchr

/-- A `char`. -/
abbrev char : Type := Fin 256

/-- The value of a `char` in an expression: it is promoted to `int`, and
`char` is signed (x86-64), so the bytes from 128 on are the negative values. -/
def promote (x : char) : Int := if x.val < 128 then (x.val : Int) else (x.val : Int) - 256

/-- `remchr(in, out, c)`, that is `while ((*out = *in)) out += (*in++ != c);`,
with `c` the `const int c` and `*in` promoted to `int` for the comparison.
The two pointers are offsets `inp` and `out` into one memory `mem`, so that
`out` may be the same buffer as `in`; `fuel` bounds the number of iterations
and the result is the memory after the call. -/
def remchr (c : Int) : Nat → List char → Int → Int → Run (List char)
  | 0, _, _, _ => .out_of_fuel
  | fuel + 1, mem, inp, out =>
    (Run.load mem inp).bind fun x =>
    (Run.store mem out x).bind fun mem =>
    if x ≠ 0 then
      (Run.load mem inp).bind fun y =>
      remchr c fuel mem (inp + 1) (out + (if promote y ≠ c then 1 else 0))
    else .done mem

/-- The memory holds at offset `p` the characters of `s`, none of them NUL,
followed by a NUL. -/
def StringAt (mem : List char) (p : Nat) (s : List char) : Prop :=
  (∀ x ∈ s, x ≠ 0) ∧ (∀ j, j < s.length → mem[p + j]? = s[j]?) ∧
  mem[p + s.length]? = some 0

instance (mem : List char) (p : Nat) (s : List char) : Decidable (StringAt mem p s) := by
  unfold StringAt; infer_instance

end Remchr

/-! # `trie1.c` -/

namespace Trie

/-- Modelled from the spec: `struct trie` of `trie1.h` (not among the
sources), with the three fields the code uses; a pointer is the index of a
node in the heap and `none` is `NULL`. -/
structure trie where
  c : Nat
  next : Option Nat
  child : Option Nat
deriving DecidableEq

/-- The nodes allocated so far. -/
abbrev Heap : Type := List trie

/-- Reading the node a pointer refers to. -/
def deref (h : Heap) (p : Nat) : Run trie :=
  match h[p]? with
  | some n => .done n
  | none => .bad_access

/-- Writing a node through a pointer. -/
def assign (h : Heap) (p : Nat) (n : trie) : Run Heap :=
  if p < h.length then .done (h.set p n) else .bad_access

/-- `trie_alloc(c)`: `malloc` hands out a new node. -/
def trie_alloc (h : Heap) (c : Nat) : Heap × Nat :=
  (h ++ [⟨c, none, none⟩], h.length)

/-- `trie_new()`. -/
def trie_new (h : Heap) : Heap × Nat := trie_alloc h 0

/-- The loop `while (s->c < c && s->next && s->next->c < c) s = s->next;` of
`do_trie_find_or_add`. -/
def find_or_add_scan (h : Heap) (c : Nat) : Nat → Nat → Run Nat
  | 0, _ => .out_of_fuel
  | fuel + 1, s =>
    (deref h s).bind fun sn =>
    if sn.c < c then
      match sn.next with
      | none => .done s
      | some nx =>
        (deref h nx).bind fun nn =>
        if nn.c < c then find_or_add_scan h c fuel nx else .done s
    else .done s

/-- `do_trie_find_or_add(parent, c)`: the result is the heap after the call and
the pointer returned. -/
def do_trie_find_or_add (fuel : Nat) (h : Heap) (parent : Nat) (c : Nat) : Run (Heap × Nat) :=
  (deref h parent).bind fun pn =>
  match pn.child with
  | none =>
    let (h1, n) := trie_alloc h c
    (assign h1 parent { pn with child := some n }).bind fun h2 => .done (h2, n)
  | some s0 =>
    (find_or_add_scan h c fuel s0).bind fun s =>
    (deref h s).bind fun sn =>
    if sn.c = c then .done (h, s)
    else
      let second : Run (Option Nat) :=
        match sn.next with
        | none => .done none
        | some nx => (deref h nx).bind fun nn => .done (if nn.c = c then some nx else none)
      second.bind fun hit =>
      match hit with
      | some nx => .done (h, nx)
      | none =>
        let (h1, n) := trie_alloc h c
        if sn.c > c then
          (deref h1 n).bind fun nn =>
          (assign h1 n { nn with next := some s }).bind fun h2 =>
          if s = s0 then
            (deref h2 parent).bind fun pn2 =>
            (assign h2 parent { pn2 with child := some n }).bind fun h3 => .done (h3, n)
          else .done (h2, n)
        else
          (deref h1 n).bind fun nn =>
          (assign h1 n { nn with next := sn.next }).bind fun h2 =>
          (deref h2 s).bind fun sn2 =>
          (assign h2 s { sn2 with next := some n }).bind fun h3 => .done (h3, n)

/-- The loop `while (*str) t = do_trie_find_or_add(t, *str++);` of `trie_add`;
`str` is the list of the characters before the terminating NUL. -/
def trie_add_walk (fuel : Nat) : Heap → Nat → List Nat → Run (Heap × Nat)
  | h, t, [] => .done (h, t)
  | h, t, ch :: rest =>
    (do_trie_find_or_add fuel h t ch).bind fun r => trie_add_walk fuel r.1 r.2 rest

/-- `trie_add(t, str)`. -/
def trie_add (fuel : Nat) (h : Heap) (t : Nat) (str : List Nat) : Run Heap :=
  let top := t
  (trie_add_walk fuel h t str).bind fun r =>
  (deref r.1 r.2).bind fun tn =>
  assign r.1 r.2 { tn with child := some top }

/-- The loop `while (t && t->c < *str) t = t->next;` of `trie_find`; `ch` is
`*str`. -/
def trie_find_scan (h : Heap) (ch : Nat) : Nat → Option Nat → Run (Option Nat)
  | 0, _ => .out_of_fuel
  | _ + 1, none => .done none
  | fuel + 1, some t =>
    (deref h t).bind fun tn =>
    if tn.c < ch then trie_find_scan h ch fuel tn.next else .done (some t)

/-- The `do ... while (t && *str && (t->c == *str++) && (t = t->child))` loop
of `trie_find`; the result is the final `t`. -/
def trie_find_loop (h : Heap) : Nat → Option Nat → List Nat → Run (Option Nat)
  | 0, _, _ => .out_of_fuel
  | fuel + 1, t, str =>
    (trie_find_scan h (str.headD 0) fuel t).bind fun t =>
    match t, str with
    | none, _ => .done none
    | some t, [] => .done (some t)
    | some t, ch :: rest =>
      (deref h t).bind fun tn =>
      if tn.c = ch then
        match tn.child with
        | none => .done none
        | some t1 => trie_find_loop h fuel (some t1) rest
      else .done (some t)

/-- `trie_find(t, str)`: the result is `t && !t->c`. -/
def trie_find (fuel : Nat) (h : Heap) (t : Nat) (str : List Nat) : Run Nat :=
  let first : Run (Option Nat) :=
    if str.headD 0 ≠ 0 then (deref h t).bind fun tn => .done tn.child else .done (some t)
  first.bind fun t =>
  (trie_find_loop h fuel t str).bind fun t =>
  match t with
  | none => .done 0
  | some t => (deref h t).bind fun tn => .done (if tn.c = 0 then 1 else 0)

/-- The heap after `trie_new()` (the top node is node 0) and `trie_add` of
each string of `strs`, in order. -/
def trie_of (fuel : Nat) (strs : List (List Nat)) : Run Heap :=
  strs.foldl (fun r s => r.bind fun h => trie_add fuel h 0 s) (.done (trie_new []).1)

/-- The loop `while (sib->next != t) sib = sib->next;` of `trie_del`. -/
def sib_scan (h : Heap) (t : Nat) : Nat → Option Nat → Run Nat
  | 0, _ => .out_of_fuel
  | _ + 1, none => .bad_access
  | fuel + 1, some sib =>
    (deref h sib).bind fun sn =>
    if sn.next ≠ some t then sib_scan h t fuel sn.next else .done sib

/-- The test `!t->child || !t->child->c` of `trie_del`. -/
def no_longer_needed (h : Heap) (t : Nat) : Run Bool :=
  (deref h t).bind fun tn =>
  match tn.child with
  | none => .done true
  | some ch => (deref h ch).bind fun cn => .done (cn.c = 0)

/-- The removal of `t` from the children of `parent` in `trie_del`: the first
child is replaced by its `next`, a later child is skipped by the sibling before
it (`free(t)` leaves the other nodes as they are). -/
def unlink (fuel : Nat) (h : Heap) (parent t : Nat) : Run Heap :=
  (deref h parent).bind fun pn =>
  (deref h t).bind fun tn =>
  if pn.child = some t then
    assign h parent { pn with child := tn.next }
  else
    (sib_scan h t fuel pn.child).bind fun sib =>
    (deref h sib).bind fun sn =>
    match sn.next with
    | none => .bad_access
    | some nx =>
      (deref h nx).bind fun nn =>
      assign h sib { sn with next := nn.next }

/-- `trie_del(t, str)`: the heap after the call and the value returned; `str`
is the list of the characters before the terminating NUL. -/
def trie_del (fuel : Nat) : Heap → Nat → List Nat → Run (Heap × Nat)
  | h, _, [] => .done (h, 1)
  | h, t, ch :: rest =>
    let parent := t
    (deref h parent).bind fun pn =>
    (trie_find_scan h ch fuel pn.child).bind fun t =>
    match t with
    | none => .done (h, 0)
    | some t =>
      (deref h t).bind fun tn =>
      if tn.c ≠ ch then .done (h, 0)
      else
        (trie_del fuel h t rest).bind fun r =>
        if r.2 = 0 then .done (r.1, 0)
        else
          (no_longer_needed r.1 t).bind fun gone =>
          if gone then (unlink fuel r.1 parent t).bind fun h1 => .done (h1, 1)
          else .done (r.1, 1)

end Trie

/-! # `grid_pop_bench.c` -/

namespace Grid

/-- `GRID_SIZE`. -/
def GRID_SIZE : Nat := 16

/-- The value of
`(r & 0x0f0f0f0f) + ((r >> 4) & 0x07070707) + ((r >> 3) & 0x03030303)` for the
`int r` that `rand()` returned (a value from 0 to `RAND_MAX`, so `&` and `>>`
are those of the natural numbers), as the 32 bits stored. -/
def pop_word (r : Nat) : Nat :=
  ((r &&& 0x0f0f0f0f) + ((r >>> 4) &&& 0x07070707) + ((r >>> 3) &&& 0x03030303)) % 2 ^ 32

/-- Byte `j` of a 32-bit word. -/
def byte_of (w j : Nat) : Nat := (w / 256 ^ j) % 256

/-- The store `*x = w` through the `int *x` that points at word `x` of the
cells `g` (the 256 bytes of `g->c`, row after row; x86 byte order). -/
def store_int (g : List Nat) (x w : Nat) : Run (List Nat) :=
  if 4 * x + 4 ≤ g.length then
    .done (g.take (4 * x) ++ [byte_of w 0, byte_of w 1, byte_of w 2, byte_of w 3]
      ++ g.drop (4 * x + 4))
  else .bad_access

/-- The value of `i -= sizeof *x` for the `int i`: the subtraction is made in
`size_t` and the result converted back to `int`. -/
def sub_sizeof (i : Int) : Int :=
  let u : Int := (i % 2 ^ 64 + 2 ^ 64 - 4) % 2 ^ 64
  (u + 2 ^ 31) % 2 ^ 32 - 2 ^ 31

/-- The `do ... while (i -= sizeof *x)` loop of `grid_pop_bits`; `rand k` is
the value of the call number `k` of `rand()`, `x` counts the words written. -/
def pop_loop (rand : Nat → Nat) : Nat → Nat → Int → List Nat → Run (List Nat × Nat)
  | 0, _, _, _ => .out_of_fuel
  | fuel + 1, x, i, g =>
    let r := rand x
    (store_int g x (pop_word r)).bind fun g =>
    let i := sub_sizeof i
    if i ≠ 0 then pop_loop rand fuel (x + 1) i g else .done (g, x + 1)

/-- `grid_pop_bits(g)`: the cells afterwards and the number of words written. -/
def grid_pop_bits (rand : Nat → Nat) (fuel : Nat) (g : List Nat) : Run (List Nat × Nat) :=
  pop_loop rand fuel 0 (GRID_SIZE * GRID_SIZE) g

/-- A sequence of values of `rand()` for the examples. -/
def sample_rand (k : Nat) : Nat := (k * 1103515245 + 12345) % 2147483648

end Grid

/-! # Properties of `buf.c` -/

namespace Buf

/-! ## Arithmetic of `size_t` -/

theorem sz_add_small {a b : Nat} (h : a + b < SIZE_MOD) : sz_add a b = a + b := by
  unfold sz_add; exact Nat.mod_eq_of_lt h

theorem sz_sub_small {a b : Nat} (hb : b ≤ a) (ha : a < SIZE_MOD) : sz_sub a b = a - b := by
  unfold sz_sub SIZE_MOD at *; omega

/-! ## `buf_lengthen` -/

/-- As long as `b->len + len` does not exceed the range of `size_t`,
`buf_lengthen` aborts exactly when `len + n > buflen`, before any field is
touched, and otherwise adds `n` to `len` and changes nothing else. -/
theorem buf_lengthen_of_no_wrap (b : buf) (n : Nat) (h : b.len + n < SIZE_MOD) :
    buf_lengthen b n =
      if b.len + n ≤ b.buflen then .ok () { b with len := b.len + n } else .fault .aborted b := by
  unfold buf_lengthen
  rw [sz_add_small h]
  by_cases hle : b.len + n ≤ b.buflen
  · have : ¬ b.len + n > b.buflen := by omega
    simp [hle, this]
  · have : b.len + n > b.buflen := by omega
    simp [hle, this]

/-! ## Calls that cannot return -/

/-- In every wrapped state satisfying the invariants, `buf_append_circ` of a
non-empty string that fits (`len + n <= buflen`) aims its copy at offset
`start + len`, which lies beyond the array. -/
theorem buf_append_circ_wrapped_faults (b : buf) (s : List u8) (hwf : WF b) (hinv : Inv b)
    (hw : b.buflen < b.start + b.len) (hs : s ≠ []) (hfit : b.len + s.length ≤ b.buflen) :
    buf_append_circ b s = .fault .out_of_bounds b := by
  obtain ⟨hd, hmax⟩ := hwf
  obtain ⟨hst, hl⟩ := hinv
  unfold PTRDIFF_MAX at hmax
  have hn : s.length ≠ 0 := by simpa using hs
  have e1 : sz_add b.len s.length = b.len + s.length :=
    sz_add_small (by unfold SIZE_MOD; omega)
  have e2 : sz_add b.start b.len = b.start + b.len :=
    sz_add_small (by unfold SIZE_MOD; omega)
  have e3 : sz_sub (b.start + b.len) b.buflen = b.start + b.len - b.buflen :=
    sz_sub_small (by omega) (by unfold SIZE_MOD; omega)
  have e4 : sz_sub b.start (b.start + b.len - b.buflen) = b.buflen - b.len := by
    rw [sz_sub_small (by omega) (by unfold SIZE_MOD; omega)]; omega
  have c1 : ¬ b.buflen < b.len + s.length := by omega
  have c2 : ¬ b.start + b.len ≤ b.buflen := by omega
  have c3 : s.length ≤ b.buflen - b.len := by omega
  have c4 : ¬ (b.start + b.len + s.length ≤ b.buflen) := by omega
  simp [buf_append_circ, buf_len, buf_buflen, buf_space_contig, memcpy, Res.andThen,
    e1, e2, e3, e4, c1, c2, c3, c4, hn, hd]

/-- In every state satisfying the invariants, `buf_append_circ` of a string
longer than `buflen` does not return: it is abandoned on an assertion or on a
copy beyond the array. -/
theorem buf_append_circ_oversize_faults (b : buf) (s : List u8) (hwf : WF b) (hinv : Inv b)
    (hbig : b.buflen < s.length) (hs : s.length ≤ PTRDIFF_MAX) :
    ∃ f b', buf_append_circ b s = .fault f b' := by
  obtain ⟨hd, hmax⟩ := hwf
  obtain ⟨hst, hl⟩ := hinv
  unfold PTRDIFF_MAX at hmax hs
  have e1 : sz_add b.len s.length = b.len + s.length :=
    sz_add_small (by unfold SIZE_MOD; omega)
  have e2 : sz_add 0 s.length = s.length := by
    rw [sz_add_small (by unfold SIZE_MOD; omega)]; simp
  have e3 : sz_add 0 0 = 0 := by simp [sz_add]
  have e4 : sz_sub b.buflen 0 = b.buflen := by
    rw [sz_sub_small (by omega) (by unfold SIZE_MOD; omega)]; simp
  have e5 : sz_sub s.length b.buflen = s.length - b.buflen :=
    sz_sub_small (by omega) (by unfold SIZE_MOD; omega)
  have c1 : b.buflen < b.len + s.length := by omega
  have c2 : ¬ s.length ≤ b.buflen := by omega
  have c3 : b.buflen ≠ 0 := by omega
  have c4 : b.buflen ≤ s.length := by omega
  have c5 : s.length - b.buflen ≠ 0 := by omega
  cases hr : buf_append_circ b s with
  | fault f b' => exact ⟨f, b', rfl⟩
  | ok r b' =>
    exfalso
    by_cases h2 : s.length - b.buflen ≤ b.buflen <;>
    simp [buf_append_circ, buf_clr, buf_len, buf_buflen, buf_space_contig, memcpy, ASSERT,
      Res.andThen, e1, e2, e3, e4, e5, c1, c2, c3, c4, c5, hd, h2] at hr

/-- In every state satisfying the invariants, `buf_append` of a non-empty
string that is not longer than `buflen - len` but does not fit behind the data
(`start + len + n > buflen`) copies beyond the array: no compaction is
attempted. -/
theorem buf_append_past_end_faults (b : buf) (s : List u8) (hwf : WF b) (hinv : Inv b)
    (hs : s ≠ []) (hfit : s.length ≤ b.buflen - b.len)
    (hpast : b.buflen < b.start + b.len + s.length) :
    buf_append b s = .fault .out_of_bounds b := by
  obtain ⟨hd, hmax⟩ := hwf
  obtain ⟨hst, hl⟩ := hinv
  unfold PTRDIFF_MAX at hmax
  have hn : s.length ≠ 0 := by simpa using hs
  have e1 : sz_sub b.buflen b.len = b.buflen - b.len :=
    sz_sub_small hl (by unfold SIZE_MOD; omega)
  have e2 : sz_add b.start b.len = b.start + b.len :=
    sz_add_small (by unfold SIZE_MOD; omega)
  have c1 : ¬ b.buflen - b.len < s.length := by omega
  have c2 : ¬ (b.start + b.len + s.length ≤ b.buflen) := by omega
  simp [buf_append, buf_space, buf_end, memcpy, Res.andThen, e1, e2, c1, c2, hn, hd]

/-! ## Calls that return -/

/-- A remainder of a number between `c` and `2 * c` is obtained by one
subtraction. -/
theorem mod_once {a c : Nat} (h1 : c ≤ a) (h2 : a < 2 * c) : a % c = a - c := by
  rw [Nat.mod_eq_sub_mod h1]
  exact Nat.mod_eq_of_lt (by omega)

/-- The outcome of `buf_consume` for `n <= len` in a state satisfying the
invariants. -/
theorem buf_consume_eq (b : buf) (n : Nat) (hwf : WF b) (hinv : Inv b) (hn : n ≤ b.len) :
    buf_consume b n =
      .ok () { b with start := (b.start + n) % b.buflen, len := b.len - n } := by
  obtain ⟨_, hmax⟩ := hwf
  obtain ⟨hs, hl⟩ := hinv
  unfold PTRDIFF_MAX at hmax
  have h1 : sz_add b.start n = b.start + n := sz_add_small (by unfold SIZE_MOD; omega)
  have h2 : sz_sub b.len n = b.len - n := sz_sub_small hn (by unfold SIZE_MOD; omega)
  have h3 : b.buflen ≠ 0 := by omega
  have h4 : (b.start + n) % b.buflen < b.buflen := Nat.mod_lt _ (by omega)
  simp [buf_consume, ASSERT, Res.andThen, buf_len, hn, h1, h2, h3, h4]

/-- The outcome of `buf_shift` in a non-wrapped state satisfying the
invariants: the bytes are moved when `len > 0` and `start > 0`, and `start`
becomes 0. -/
theorem buf_shift_eq (b : buf) (hwf : WF b) (hinv : Inv b) (hlin : b.start + b.len ≤ b.buflen) :
    buf_shift b = .ok ()
      { b with data := if 0 < b.len ∧ 0 < b.start
                       then (b.data.drop b.start).take b.len ++ b.data.drop b.len else b.data,
               start := 0 } := by
  obtain ⟨hd, _⟩ := hwf
  obtain ⟨hs, hl⟩ := hinv
  by_cases hc : 0 < b.len ∧ 0 < b.start
  · have hne : b.len ≠ 0 := by omega
    have hin : b.start + b.len ≤ b.data.length := by omega
    simp [buf_shift, ASSERT, Res.andThen, memmove0, hs, hl, hc, hne, hin]
  · simp [buf_shift, ASSERT, Res.andThen, hs, hl, hc]

/-- When `buf_append` returns in a non-wrapped state satisfying the invariants,
it returns the length of the string, `start` is unchanged, `len` has grown by
that length, and the string was stored inside the array, below `buflen`. -/
theorem buf_append_ok_linear (b : buf) (s : List u8) (r : Nat) (b1 : buf) (hwf : WF b)
    (hinv : Inv b) (hlin : b.start + b.len ≤ b.buflen) (happ : buf_append b s = .ok r b1) :
    r = s.length ∧ b1.start = b.start ∧ b1.len = b.len + s.length ∧ b1.buflen = b.buflen ∧
    b.start + b.len + s.length ≤ b.buflen ∧ b.len + s.length < b.buflen := by
  have hsh := buf_shift_eq b hwf hinv hlin
  obtain ⟨hd, hmax⟩ := hwf
  obtain ⟨hs, hl⟩ := hinv
  unfold PTRDIFF_MAX at hmax
  have e1 : sz_sub b.buflen b.len = b.buflen - b.len :=
    sz_sub_small hl (by unfold SIZE_MOD; omega)
  have e2 : sz_add b.start b.len = b.start + b.len :=
    sz_add_small (by unfold SIZE_MOD; omega)
  by_cases hA : b.buflen - b.len < s.length
  · exfalso
    have hA' : ¬ s.length ≤ b.buflen - b.len := by omega
    by_cases h0 : b.start = 0
    · simp [buf_append, buf_space, ASSERT, Res.andThen, e1, hA, hA', h0] at happ
    · simp [buf_append, buf_space, ASSERT, Res.andThen, e1, hA, hA', h0, hsh] at happ
  · have hA' : s.length ≤ b.buflen - b.len := by omega
    have e3 : sz_add b.len s.length = b.len + s.length :=
      sz_add_small (by unfold SIZE_MOD; omega)
    have e4 : sz_add b.len 0 = b.len := by
      rw [sz_add_small (by unfold SIZE_MOD; omega)]; rfl
    by_cases hlt : b.len + s.length < b.buflen
    · by_cases hz : s.length = 0
      · have hlt' : b.len < b.buflen := by omega
        simp [buf_append, buf_space, buf_end, memcpy, ASSERT, Res.andThen, e1, e2, e4, hA, hz,
          hlt'] at happ
        obtain ⟨hr, hb⟩ := happ
        subst hb
        simp [hz, hr.symm]
        omega
      · by_cases hfit : b.start + b.len + s.length ≤ b.buflen
        · simp [buf_append, buf_space, buf_end, memcpy, ASSERT, Res.andThen, e1, e2, e3, hA, hz,
            hd, hfit, hlt] at happ
          obtain ⟨hr, hb⟩ := happ
          subst hb
          simp [hr.symm]
          omega
        · exfalso
          simp [buf_append, buf_space, buf_end, memcpy, ASSERT, Res.andThen, e1, e2, e3, hA, hz,
            hd, hfit] at happ
    · exfalso
      by_cases hz : s.length = 0
      · have hlt' : ¬ b.len < b.buflen := by omega
        simp [buf_append, buf_space, buf_end, memcpy, ASSERT, Res.andThen, e1, e2, e4, hA, hz,
          hlt'] at happ
      · by_cases hfit : b.start + b.len + s.length ≤ b.buflen
        · simp [buf_append, buf_space, buf_end, memcpy, ASSERT, Res.andThen, e1, e2, e3, hA, hz,
            hd, hfit, hlt] at happ
        · simp [buf_append, buf_space, buf_end, memcpy, ASSERT, Res.andThen, e1, e2, e3, hA, hz,
            hd, hfit] at happ

/-! ## The claims -/

/-- C1 (invariant preservation), evaluated on a valid sequence of calls:
`buf_init` with a capacity of 3 followed by `buf_append_circ` of four bytes.
The append sets `len` to 4, which exceeds the capacity 3, and the call is
abandoned on its own `ASSERT(b->len <= b->buflen)`: the invariant
`length <= capacity` does not hold after the call. -/
theorem buf_init_append_circ_oversize_breaks_len_bound :
    (buf_init junk [0, 0, 0] 3).andThen (fun _ b => buf_append_circ b [1, 2, 3, 4])
      = .fault .assertion ⟨[4, 2, 3], 3, 0, 4⟩ ∧
    ¬ Inv ⟨[4, 2, 3], 3, 0, 4⟩ := by
  decide

/-- C2 (effect of `buf_append_circ` when the bytes fit), evaluated on the
wrapped state `wrapped3` (start 2, len 2, capacity 3) and the one byte `B`:
although `len + 1 <= capacity`, the byte is not stored at offset
`(start + len) mod capacity = 1`; the copy is aimed at offset
`start + len = 4`, outside the array, and `len` stays 2. -/
theorem buf_append_circ_wrapped_not_appended :
    WF wrapped3 ∧ Inv wrapped3 ∧ wrapped3.len + [(66 : u8)].length ≤ wrapped3.buflen ∧
    buf_append_circ wrapped3 [66] = .fault .out_of_bounds wrapped3 := by
  decide

/-- C3 (round trip), evaluated on a capacity of 3: append `XY`, read (the
reader gets `XY`), append `AB` (stored at offsets 2 and 0), append `C`.  No
append triggers truncation, yet the last one is aimed outside the array and
`C` is never stored, so the reads cannot return `XYABC`. -/
theorem round_trip_stops_at_wrapped_append :
    (buf_init junk [0, 0, 0] 3).andThen (fun _ b => buf_append_circ b [88, 89])
      = .ok 2 ⟨[88, 89, 255], 3, 0, 2⟩ ∧
    read_consume ⟨[88, 89, 255], 3, 0, 2⟩ = .ok [88, 89] ⟨[88, 89, 255], 3, 2, 0⟩ ∧
    buf_append_circ ⟨[88, 89, 255], 3, 2, 0⟩ [65, 66] = .ok 2 ⟨[66, 89, 65], 3, 2, 2⟩ ∧
    (2 : Nat) + [(67 : u8)].length ≤ 3 ∧
    buf_append_circ ⟨[66, 89, 65], 3, 2, 2⟩ [67] = .fault .out_of_bounds ⟨[66, 89, 65], 3, 2, 2⟩ := by
  decide

/-- C4 (writes of `buf_append_circ` stay inside `[0, capacity)`), evaluated on
a wrapped state of capacity 4 (start 3, len 2) and one byte: the copy goes to
offset `start + len = 5`.  With an array of exactly 4 bytes this is an access
outside the array; with two more bytes of memory behind the buffer, the byte
at offset 5 is overwritten. -/
theorem buf_append_circ_wrapped_writes_outside :
    WF ⟨[1, 2, 3, 4], 4, 3, 2⟩ ∧ Inv ⟨[1, 2, 3, 4], 4, 3, 2⟩ ∧
    buf_append_circ ⟨[1, 2, 3, 4], 4, 3, 2⟩ [9]
      = .fault .out_of_bounds ⟨[1, 2, 3, 4], 4, 3, 2⟩ ∧
    buf_append_circ ⟨[1, 2, 3, 4, 0, 0], 4, 3, 2⟩ [9]
      = .ok 1 ⟨[1, 2, 3, 4, 0, 9], 4, 3, 3⟩ := by
  decide

/-- With the `space()` of the spec (`capacity - length`) as the macro
`buf_space`, `buf_append` on the non-wrapped state `linear3` (start 1, len 1,
capacity 3) and two bytes makes no compaction, 2 being not more than 2, and
the copy goes to offsets 2 and 3.  With an array of exactly 3 bytes this is an
access outside the array; with more memory behind the buffer, the byte at
offset 3 is overwritten. -/
theorem buf_append_offset_start_writes_outside :
    WF linear3 ∧ Inv linear3 ∧ linear3.start + linear3.len ≤ linear3.buflen ∧
    [(7 : u8), 8].length ≤ buf_space linear3 ∧
    buf_append linear3 [7, 8] = .fault .out_of_bounds linear3 ∧
    buf_append linear3_slack [7, 8] = .fault .assertion ⟨[1, 2, 7, 8, 0], 3, 1, 3⟩ := by
  decide

/-- C6 (a payload larger than the capacity), evaluated on the fresh buffer of
capacity 3 and on the wrapped state `wrapped3` with four bytes: the buffer is
cleared, the first three bytes are copied, the fourth overwrites offset 0, and
`len` becomes 4, not `min(4, 3) = 3`; the call is abandoned on
`ASSERT(b->len <= b->buflen)`. -/
theorem buf_append_circ_oversize_len :
    buf_append_circ fresh3 [1, 2, 3, 4] = .fault .assertion ⟨[4, 2, 3], 3, 0, 4⟩ ∧
    buf_append_circ wrapped3 [1, 2, 3, 4] = .fault .assertion ⟨[4, 2, 3], 3, 0, 4⟩ := by
  decide

/-- C7 (truncate-and-reset): in a state satisfying the invariants, appending
`n` bytes with `n <= capacity < length + n` returns `n` and leaves `start = 0`,
`len = n` and the bytes at offsets `0 .. n - 1` equal to the input, the rest of
the array untouched; the outcome is the same as that of the append to the
cleared buffer, so nothing of the previous data is in the valid region. -/
theorem buf_append_circ_truncate_reset (b : buf) (s : List u8) (hwf : WF b) (hinv : Inv b)
    (h1 : s.length ≤ b.buflen) (h2 : b.buflen < b.len + s.length) :
    ∃ b', buf_append_circ b s = .ok s.length b' ∧ b'.start = 0 ∧ b'.len = s.length ∧
      b'.buflen = b.buflen ∧ b'.data.take s.length = s ∧
      b'.data.drop s.length = b.data.drop s.length ∧
      buf_append_circ (buf_clr b) s = .ok s.length b' := by
  obtain ⟨hd, hmax⟩ := hwf
  obtain ⟨hs, hl⟩ := hinv
  unfold PTRDIFF_MAX at hmax
  have e1 : sz_add b.len s.length = b.len + s.length :=
    sz_add_small (by unfold SIZE_MOD; omega)
  have e2 : sz_add 0 s.length = s.length := by
    rw [sz_add_small (by unfold SIZE_MOD; omega)]; simp
  have e3 : sz_add 0 0 = 0 := by simp [sz_add]
  have e4 : sz_sub b.buflen 0 = b.buflen := by
    rw [sz_sub_small (by omega) (by unfold SIZE_MOD; omega)]; simp
  have hne : s.length ≠ 0 := by omega
  have hlt : ¬ b.buflen < s.length := by omega
  have hpos : 0 < b.buflen := by omega
  refine ⟨{ b with data := s ++ b.data.drop s.length, start := 0, len := s.length },
    ?_, rfl, rfl, rfl, ?_, ?_, ?_⟩
  · simp [buf_append_circ, buf_clr, buf_len, buf_buflen, buf_space_contig, memcpy, ASSERT,
      Res.andThen, e1, e2, e3, e4, h2, h1, hne, hd, hlt, hpos]
  · simp
  · simp
  · simp [buf_append_circ, buf_clr, buf_len, buf_buflen, buf_space_contig, memcpy, ASSERT,
      Res.andThen, e1, e2, e3, e4, h2, h1, hne, hd, hlt, hpos]

/-- Witness of C7: two bytes appended to the wrapped buffer `wrapped3`, which
holds two bytes of its capacity 3. -/
theorem buf_append_circ_truncate_reset_witness :
    WF wrapped3 ∧ Inv wrapped3 ∧
    ∃ b', buf_append_circ wrapped3 [7, 8] = .ok 2 b' ∧ b'.start = 0 ∧ b'.len = 2 ∧
      b'.buflen = 3 ∧ b'.data.take 2 = [7, 8] ∧
      b'.data.drop 2 = wrapped3.data.drop 2 ∧
      buf_append_circ (buf_clr wrapped3) [7, 8] = .ok 2 b' :=
  ⟨by decide, by decide,
    buf_append_circ_truncate_reset wrapped3 [7, 8] (by decide) (by decide) (by decide)
      (by decide)⟩

/-- C8 (effect of `buf_consume`): in a state satisfying the invariants and for
`n <= length`, the call returns with `start = (start + n) mod capacity` and
`len = len - n`; the capacity and the array are unchanged. -/
theorem buf_consume_effect (b : buf) (n : Nat) (hwf : WF b) (hinv : Inv b) (hn : n ≤ b.len) :
    buf_consume b n =
      .ok () { b with start := (b.start + n) % b.buflen, len := b.len - n } := by
  obtain ⟨_, hmax⟩ := hwf
  obtain ⟨hs, hl⟩ := hinv
  unfold PTRDIFF_MAX at hmax
  have h1 : sz_add b.start n = b.start + n := sz_add_small (by unfold SIZE_MOD; omega)
  have h2 : sz_sub b.len n = b.len - n := sz_sub_small hn (by unfold SIZE_MOD; omega)
  have h3 : b.buflen ≠ 0 := by omega
  have h4 : (b.start + n) % b.buflen < b.buflen := Nat.mod_lt _ (by omega)
  simp [buf_consume, ASSERT, Res.andThen, buf_len, hn, h1, h2, h3, h4]

/-- Witness of C8: consuming both bytes of the wrapped buffer `wrapped3` moves
`start` from 2 to `(2 + 2) mod 3 = 1`. -/
theorem buf_consume_effect_witness :
    WF wrapped3 ∧ Inv wrapped3 ∧ 2 ≤ wrapped3.len ∧
    buf_consume wrapped3 2 = .ok () ⟨[65, 89, 90], 3, 1, 0⟩ :=
  ⟨by decide, by decide, by decide,
    buf_consume_effect wrapped3 2 (by decide) (by decide) (by decide)⟩

/-- C9 (`buf_consume` never underflows): for every state and every `n` larger
than `len`, the call is abandoned on the assertion `len <= buf_len(b)` before
any field is touched: the structure is the one the call received, so `len` has
not been replaced by `len - n` modulo `2 ^ 64`. -/
theorem buf_consume_under_rejected (b : buf) (n : Nat) (hn : b.len < n) :
    buf_consume b n = .fault .assertion b := by
  have hn' : ¬ n ≤ b.len := by omega
  simp [buf_consume, ASSERT, Res.andThen, buf_len, hn']

/-- Witness of C9: consuming three bytes of the two that `wrapped3` holds. -/
theorem buf_consume_under_rejected_witness :
    wrapped3.len < 3 ∧ buf_consume wrapped3 3 = .fault .assertion wrapped3 :=
  ⟨by decide, buf_consume_under_rejected wrapped3 3 (by decide)⟩

/-- C10 (`buf_lengthen` succeeds exactly when `length + n <= capacity`),
evaluated on a buffer of capacity 3 holding one byte and `n = 2 ^ 64 - 1`, the
largest `size_t`: `b->len + len` wraps around to 0, the test
`b->len + len > b->buflen` is false, and the call returns with `len = 0`,
although `length + n` exceeds the capacity. -/
theorem buf_lengthen_wraps_past_check :
    ¬ ((⟨[65, 255, 255], 3, 0, 1⟩ : buf).len + 18446744073709551615 ≤ 3) ∧
    buf_lengthen ⟨[65, 255, 255], 3, 0, 1⟩ 18446744073709551615
      = .ok () ⟨[65, 255, 255], 3, 0, 0⟩ := by
  decide

/-- C11 (the linear append of a string with `n <= space()` succeeds),
evaluated on two states.  In `linear5` (start 2, len 1, capacity 5) three
bytes are not more than `space() = 4`, so no compaction takes place and the
copy goes to offsets 3, 4 and 5, beyond the array.  In the fresh buffer of
capacity 3 three bytes fill the buffer exactly; they are stored, `len`
becomes 3, and the call is abandoned on `ASSERT(b->len < b->buflen)`. -/
theorem buf_append_fitting_not_appended :
    WF linear5 ∧ Inv linear5 ∧ [(7 : u8), 8, 9].length ≤ buf_space linear5 ∧
    buf_append linear5 [7, 8, 9] = .fault .out_of_bounds linear5 ∧
    WF fresh3 ∧ Inv fresh3 ∧ [(7 : u8), 8, 9].length ≤ buf_space fresh3 ∧
    buf_append fresh3 [7, 8, 9] = .fault .assertion ⟨[7, 8, 9], 3, 0, 3⟩ := by
  decide

/-- C12 (`buf_data_contig`): in every state satisfying the invariants the
result is `min(length, capacity - start)`. -/
theorem buf_data_contig_eq_min (b : buf) (hwf : WF b) (hinv : Inv b) :
    buf_data_contig b = min b.len (b.buflen - b.start) := by
  obtain ⟨_, hmax⟩ := hwf
  obtain ⟨hs, hl⟩ := hinv
  unfold PTRDIFF_MAX at hmax
  have e1 : sz_add b.start b.len = b.start + b.len := sz_add_small (by unfold SIZE_MOD; omega)
  have e2 : sz_sub b.buflen b.start = b.buflen - b.start :=
    sz_sub_small (by omega) (by unfold SIZE_MOD; omega)
  unfold buf_data_contig
  rw [e1, e2]
  split <;> omega

/-- Witness of C12: the wrapped buffer `wrapped3` holds two bytes, of which one
lies before the physical end. -/
theorem buf_data_contig_eq_min_witness :
    WF wrapped3 ∧ Inv wrapped3 ∧ buf_data_contig wrapped3 = min 2 (3 - 2) :=
  ⟨by decide, by decide, buf_data_contig_eq_min wrapped3 (by decide) (by decide)⟩

/-- C13 as stated fails where the data ends at the physical end: in `at_end3`
(start 1, len 2, capacity 3) and in the full buffer `full3` (start 0, len 3)
`end = (start + len) mod capacity = 0`, so `capacity - end = 3`, while
`buf_space_contig` returns 0. -/
theorem buf_space_contig_at_end_is_zero :
    WF at_end3 ∧ Inv at_end3 ∧ at_end3.start + at_end3.len ≤ at_end3.buflen ∧
    buf_space_contig at_end3 = 0 ∧
    buf_space_contig at_end3 ≠
      at_end3.buflen - (at_end3.start + at_end3.len) % at_end3.buflen ∧
    WF full3 ∧ Inv full3 ∧ full3.start + full3.len ≤ full3.buflen ∧
    buf_space_contig full3 = 0 ∧
    buf_space_contig full3 ≠ full3.buflen - (full3.start + full3.len) % full3.buflen := by
  decide

/-- C13 (amended): in every non-wrapped state satisfying the invariants
`buf_space_contig` is `capacity - (start + length)`; this is `capacity - end`
with `end = (start + length) mod capacity` when `start + length < capacity`,
and 0 when `start + length = capacity`. -/
theorem buf_space_contig_linear (b : buf) (hwf : WF b) (hinv : Inv b)
    (hlin : b.start + b.len ≤ b.buflen) :
    buf_space_contig b = b.buflen - (b.start + b.len) ∧
    (b.start + b.len < b.buflen →
      buf_space_contig b = b.buflen - (b.start + b.len) % b.buflen) ∧
    (b.start + b.len = b.buflen → buf_space_contig b = 0) := by
  obtain ⟨_, hmax⟩ := hwf
  obtain ⟨hs, hl⟩ := hinv
  unfold PTRDIFF_MAX at hmax
  have e1 : sz_add b.start b.len = b.start + b.len := sz_add_small (by unfold SIZE_MOD; omega)
  have e2 : sz_sub b.buflen (b.start + b.len) = b.buflen - (b.start + b.len) :=
    sz_sub_small (by omega) (by unfold SIZE_MOD; omega)
  have e3 : buf_space_contig b = b.buflen - (b.start + b.len) := by
    simp [buf_space_contig, e1, e2, hlin]
  refine ⟨e3, ?_, ?_⟩
  · intro h; rw [e3, Nat.mod_eq_of_lt h]
  · intro h; rw [e3]; omega

/-- Witness of C13 (amended): `linear3` (start 1, len 1, capacity 3) has one
free byte before the physical end, and `at_end3` (start 1, len 2) has none. -/
theorem buf_space_contig_linear_witness :
    WF linear3 ∧ Inv linear3 ∧ linear3.start + linear3.len ≤ linear3.buflen ∧
    buf_space_contig linear3 = 3 - (1 + 1) ∧
    buf_space_contig linear3 = 3 - (1 + 1) % 3 ∧
    WF at_end3 ∧ Inv at_end3 ∧ at_end3.start + at_end3.len ≤ at_end3.buflen ∧
    buf_space_contig at_end3 = 0 :=
  ⟨by decide, by decide, by decide,
    (buf_space_contig_linear linear3 (by decide) (by decide) (by decide)).1,
    (buf_space_contig_linear linear3 (by decide) (by decide) (by decide)).2.1 (by decide),
    by decide, by decide, by decide,
    (buf_space_contig_linear at_end3 (by decide) (by decide) (by decide)).2.2 (by decide)⟩

/-- C14 (`buf_space_contig`, wrapped): in every wrapped state satisfying the
invariants the result is `start - end` with `end = start + length - capacity`,
`end <= start` (the subtraction does not wrap below zero), and no offset of
the free run `[end, end + buf_space_contig(b))` belongs to the valid
region. -/
theorem buf_space_contig_wrapped (b : buf) (hwf : WF b) (hinv : Inv b)
    (hw : b.buflen < b.start + b.len) :
    buf_space_contig b = b.start - (b.start + b.len - b.buflen) ∧
    b.start + b.len - b.buflen ≤ b.start ∧
    ∀ o, b.start + b.len - b.buflen ≤ o →
      o < (b.start + b.len - b.buflen) + buf_space_contig b → ¬ valid_offset b o := by
  obtain ⟨_, hmax⟩ := hwf
  obtain ⟨hs, hl⟩ := hinv
  unfold PTRDIFF_MAX at hmax
  have e1 : sz_add b.start b.len = b.start + b.len := sz_add_small (by unfold SIZE_MOD; omega)
  have e2 : sz_sub (b.start + b.len) b.buflen = b.start + b.len - b.buflen :=
    sz_sub_small (by omega) (by unfold SIZE_MOD; omega)
  have e3 : sz_sub b.start (b.start + b.len - b.buflen)
      = b.start - (b.start + b.len - b.buflen) :=
    sz_sub_small (by omega) (by unfold SIZE_MOD; omega)
  have hnot : ¬ b.start + b.len ≤ b.buflen := by omega
  have e4 : buf_space_contig b = b.start - (b.start + b.len - b.buflen) := by
    simp [buf_space_contig, e1, e2, e3, hnot]
  refine ⟨e4, by omega, ?_⟩
  intro o h1 h2 ⟨i, hi, ho⟩
  rw [e4] at h2
  by_cases hc : b.start + i < b.buflen
  · rw [Nat.mod_eq_of_lt hc] at ho; omega
  · rw [mod_once (by omega) (by omega)] at ho; omega

/-- Witness of C14: in `wrapped3` (start 2, len 2, capacity 3) the free run is
the single offset 1. -/
theorem buf_space_contig_wrapped_witness :
    WF wrapped3 ∧ Inv wrapped3 ∧ wrapped3.buflen < wrapped3.start + wrapped3.len ∧
    (buf_space_contig wrapped3 = 2 - (2 + 2 - 3) ∧ 2 + 2 - 3 ≤ 2 ∧
     ∀ o, 2 + 2 - 3 ≤ o → o < (2 + 2 - 3) + buf_space_contig wrapped3 →
       ¬ valid_offset wrapped3 o) :=
  ⟨by decide, by decide, by decide,
    buf_space_contig_wrapped wrapped3 (by decide) (by decide) (by decide)⟩

/-- C15 (`buf_shift` on a non-wrapped state satisfying the invariants): the
call returns with `start = 0`, `len`, `buflen` and the size of the array
unchanged, and the byte at offset `i` is the byte that was at offset
`start + i`, for every `i < len`; the source and destination ranges may
overlap. -/
theorem buf_shift_moves_data (b : buf) (hwf : WF b) (hinv : Inv b)
    (hlin : b.start + b.len ≤ b.buflen) :
    ∃ b', buf_shift b = .ok () b' ∧ b'.start = 0 ∧ b'.len = b.len ∧ b'.buflen = b.buflen ∧
      b'.data.length = b.data.length ∧
      ∀ i, i < b.len → b'.data[i]? = b.data[b.start + i]? := by
  refine ⟨_, buf_shift_eq b hwf hinv hlin, rfl, rfl, rfl, ?_, ?_⟩
  · obtain ⟨hd, _⟩ := hwf
    simp only
    split
    · simp; omega
    · rfl
  · obtain ⟨hd, _⟩ := hwf
    intro i hi
    simp only
    split
    · have h1 : i < ((b.data.drop b.start).take b.len).length := by simp; omega
      rw [List.getElem?_append_left h1, List.getElem?_take_of_lt hi, List.getElem?_drop]
    · rename_i hc
      have : b.start = 0 := by omega
      simp [this]

/-- Witness of C15: `linear4` holds three bytes at offset 1 of four; the
source range `[1, 4)` and the destination range `[0, 3)` overlap. -/
theorem buf_shift_moves_data_witness :
    WF linear4 ∧ Inv linear4 ∧ linear4.start + linear4.len ≤ linear4.buflen ∧
    ∃ b', buf_shift linear4 = .ok () b' ∧ b'.start = 0 ∧ b'.len = 3 ∧ b'.buflen = 4 ∧
      b'.data.length = 4 ∧
      ∀ i, i < 3 → b'.data[i]? = linear4.data[1 + i]? :=
  ⟨by decide, by decide, by decide,
    buf_shift_moves_data linear4 (by decide) (by decide) (by decide)⟩

/-- C16 as stated fails for an empty buffer whose `start` is not 0: in
`empty_at2` (start 2, len 0) `buf_shift` sets `start` to 0. -/
theorem buf_shift_empty_resets_start :
    WF empty_at2 ∧ Inv empty_at2 ∧ empty_at2.len = 0 ∧
    buf_shift empty_at2 = .ok () ⟨[88, 89, 255], 3, 0, 0⟩ ∧
    (⟨[88, 89, 255], 3, 0, 0⟩ : buf).start ≠ empty_at2.start := by
  decide

/-- C16 (amended): in a state satisfying the invariants, `buf_shift` changes
nothing when `start = 0` (whether the buffer is empty, full or neither); when
the buffer is empty it leaves `len`, `buflen` and the array unchanged and sets
`start` to 0. -/
theorem buf_shift_noop_cases (b : buf) (hinv : Inv b) :
    (b.start = 0 → buf_shift b = .ok () b) ∧
    (b.len = 0 → buf_shift b = .ok () { b with start := 0 }) := by
  obtain ⟨hs, hl⟩ := hinv
  constructor
  · intro h0
    have hc : ¬ (0 < b.len ∧ 0 < b.start) := by omega
    have : ({ b with start := 0 } : buf) = b := by cases b; simp_all
    simp [buf_shift, ASSERT, Res.andThen, hs, hl, hc, this]
  · intro h0
    have hc : ¬ (0 < b.len ∧ 0 < b.start) := by omega
    simp [buf_shift, ASSERT, Res.andThen, hs, hl, hc]

/-- Witness of C16 (amended): the full buffer `full3` at offset 0 and the empty
buffer `empty_at2`. -/
theorem buf_shift_noop_cases_witness :
    Inv full3 ∧ full3.start = 0 ∧ buf_shift full3 = .ok () full3 ∧
    Inv empty_at2 ∧ empty_at2.len = 0 ∧
    buf_shift empty_at2 = .ok () { empty_at2 with start := 0 } :=
  ⟨by decide, by decide, (buf_shift_noop_cases full3 (by decide)).1 (by decide),
    by decide, by decide, (buf_shift_noop_cases empty_at2 (by decide)).2 (by decide)⟩

/-- C17 (`buf_clr`): for every state, `start` and `len` become 0 and `buflen`
and the array are unchanged. -/
theorem buf_clr_effect (b : buf) :
    (buf_clr b).start = 0 ∧ (buf_clr b).len = 0 ∧ (buf_clr b).buflen = b.buflen ∧
    (buf_clr b).data = b.data :=
  ⟨rfl, rfl, rfl, rfl⟩

/-- C18 (`buf_init`): for every capacity `buflen > 0`, every array of `buflen`
bytes and every previous content of the structure, the call returns with
`start = 0`, `len = 0`, the given `buflen`, and an array of `buflen` bytes all
equal to `0xFF`, which is not zero. -/
theorem buf_init_effect (b : buf) (mem : List u8) (buflen : Nat) (hpos : 0 < buflen)
    (hmem : mem.length = buflen) :
    ∃ b', buf_init b mem buflen = .ok () b' ∧ b'.start = 0 ∧ b'.len = 0 ∧
      b'.buflen = buflen ∧ b'.data.length = buflen ∧
      (∀ i, i < buflen → b'.data[i]? = some 255) ∧ (255 : u8) ≠ 0 := by
  have hne : buflen ≠ 0 := by omega
  refine ⟨⟨List.replicate buflen 255, buflen, 0, 0⟩, ?_, rfl, rfl, rfl, by simp, ?_,
    by decide⟩
  · simp [buf_init, ASSERT, Res.andThen, memset, hne, hmem]
  · intro i hi
    simp [List.getElem?_replicate, hi]

/-- Witness of C18: the three-byte array of the tests, with other content. -/
theorem buf_init_effect_witness :
    0 < 3 ∧ [(1 : u8), 2, 3].length = 3 ∧
    ∃ b', buf_init junk [1, 2, 3] 3 = .ok () b' ∧ b'.start = 0 ∧ b'.len = 0 ∧
      b'.buflen = 3 ∧ b'.data.length = 3 ∧
      (∀ i, i < 3 → b'.data[i]? = some 255) ∧ (255 : u8) ≠ 0 :=
  ⟨by decide, by decide, buf_init_effect junk [1, 2, 3] 3 (by decide) (by decide)⟩

/-- C19 as stated fails for `buf_lengthen`: in the linear state `linear3`
(start 1, len 1, capacity 3) `buf_lengthen(&b, 2)` has `len + 2 <= capacity`,
returns, and leaves start 1, len 3, a wrapped state. -/
theorem buf_lengthen_enters_wrapped :
    WF linear3 ∧ Inv linear3 ∧ linear3.start + linear3.len ≤ linear3.buflen ∧
    linear3.len + 2 ≤ linear3.buflen ∧
    buf_lengthen linear3 2 = .ok () ⟨[1, 2, 255], 3, 1, 3⟩ ∧
    ¬ ((⟨[1, 2, 255], 3, 1, 3⟩ : buf).start + (⟨[1, 2, 255], 3, 1, 3⟩ : buf).len
        ≤ (⟨[1, 2, 255], 3, 1, 3⟩ : buf).buflen) := by
  decide

/-- C19 (amended): from a non-wrapped state satisfying the invariants, every
`buf_append` that returns leaves a non-wrapped state; `buf_lengthen` with
`len + n <= capacity` returns, and the state it leaves is non-wrapped exactly
when `start + len + n <= capacity`. -/
theorem append_lengthen_linear (b : buf) (s : List u8) (r : Nat) (b1 : buf) (n : Nat)
    (hwf : WF b) (hinv : Inv b) (hlin : b.start + b.len ≤ b.buflen)
    (happ : buf_append b s = .ok r b1) (hn : b.len + n ≤ b.buflen) :
    b1.start + b1.len ≤ b1.buflen ∧
    ∃ b2, buf_lengthen b n = .ok () b2 ∧
      (b2.start + b2.len ≤ b2.buflen ↔ b.start + b.len + n ≤ b.buflen) := by
  obtain ⟨_, h1, h2, h3, h4, _⟩ := buf_append_ok_linear b s r b1 hwf hinv hlin happ
  refine ⟨by omega, { b with len := b.len + n }, ?_, ?_⟩
  · have hmax := hwf.2
    unfold PTRDIFF_MAX at hmax
    rw [buf_lengthen_of_no_wrap b n (by unfold SIZE_MOD; omega)]
    simp [hn]
  · simp only; omega

/-- Witness of C19 (amended): one byte appended to `linear5`, and `linear5`
lengthened by 2. -/
theorem append_lengthen_linear_witness :
    WF linear5 ∧ Inv linear5 ∧ linear5.start + linear5.len ≤ linear5.buflen ∧
    buf_append linear5 [7] = .ok 1 ⟨[1, 2, 3, 7, 255], 5, 2, 2⟩ ∧
    linear5.len + 2 ≤ linear5.buflen ∧
    ((⟨[1, 2, 3, 7, 255], 5, 2, 2⟩ : buf).start + (⟨[1, 2, 3, 7, 255], 5, 2, 2⟩ : buf).len
        ≤ (⟨[1, 2, 3, 7, 255], 5, 2, 2⟩ : buf).buflen ∧
     ∃ b2, buf_lengthen linear5 2 = .ok () b2 ∧
       (b2.start + b2.len ≤ b2.buflen ↔ linear5.start + linear5.len + 2 ≤ linear5.buflen)) :=
  ⟨by decide, by decide, by decide, by decide, by decide,
    append_lengthen_linear linear5 [7] 1 ⟨[1, 2, 3, 7, 255], 5, 2, 2⟩ 2 (by decide) (by decide)
      (by decide) (by decide) (by decide)⟩

/-- C20 (`buf_consume` on a wrapped state): in every wrapped state satisfying
the invariants and for every `n <= len`, the call returns, and the state it
leaves is non-wrapped exactly when `n >= capacity - start`. -/
theorem buf_consume_unwraps_iff (b : buf) (n : Nat) (hwf : WF b) (hinv : Inv b)
    (hw : b.buflen < b.start + b.len) (hn : n ≤ b.len) :
    ∃ b', buf_consume b n = .ok () b' ∧
      (b'.start + b'.len ≤ b'.buflen ↔ b.buflen - b.start ≤ n) := by
  refine ⟨_, buf_consume_eq b n hwf hinv hn, ?_⟩
  obtain ⟨hs, hl⟩ := hinv
  simp only
  by_cases hc : b.start + n < b.buflen
  · rw [Nat.mod_eq_of_lt hc]; omega
  · rw [mod_once (by omega) (by omega)]; omega

/-- Witness of C20: one byte consumed from `wrapped3` (start 2, capacity 3). -/
theorem buf_consume_unwraps_iff_witness :
    WF wrapped3 ∧ Inv wrapped3 ∧ wrapped3.buflen < wrapped3.start + wrapped3.len ∧
    1 ≤ wrapped3.len ∧
    ∃ b', buf_consume wrapped3 1 = .ok () b' ∧
      (b'.start + b'.len ≤ b'.buflen ↔ wrapped3.buflen - wrapped3.start ≤ 1) :=
  ⟨by decide, by decide, by decide, by decide,
    buf_consume_unwraps_iff wrapped3 1 (by decide) (by decide) (by decide) (by decide)⟩

/-- C21 (the scenario of `test_append_circ` on a capacity of 3): each call
returns and leaves the state shown; the array reads `ABC`, `XYZ`, `AYZ` and
finally `DBC`. -/
theorem scenario_capacity3 :
    buf_init junk [0, 0, 0] 3 = .ok () fresh3 ∧
    buf_append_circ fresh3 [65] = .ok 1 ⟨[65, 255, 255], 3, 0, 1⟩ ∧
    buf_append_circ ⟨[65, 255, 255], 3, 0, 1⟩ [66] = .ok 1 ⟨[65, 66, 255], 3, 0, 2⟩ ∧
    buf_append_circ ⟨[65, 66, 255], 3, 0, 2⟩ [67] = .ok 1 ⟨[65, 66, 67], 3, 0, 3⟩ ∧
    buf_consume ⟨[65, 66, 67], 3, 0, 3⟩ 3 = .ok () ⟨[65, 66, 67], 3, 0, 0⟩ ∧
    buf_append_circ ⟨[65, 66, 67], 3, 0, 0⟩ [88, 89, 90] = .ok 3 ⟨[88, 89, 90], 3, 0, 3⟩ ∧
    buf_consume ⟨[88, 89, 90], 3, 0, 3⟩ 1 = .ok () ⟨[88, 89, 90], 3, 1, 2⟩ ∧
    buf_append_circ ⟨[88, 89, 90], 3, 1, 2⟩ [65] = .ok 1 ⟨[65, 89, 90], 3, 1, 3⟩ ∧
    buf_consume ⟨[65, 89, 90], 3, 1, 3⟩ 3 = .ok () ⟨[65, 89, 90], 3, 1, 0⟩ ∧
    buf_append_circ ⟨[65, 89, 90], 3, 1, 0⟩ [66, 67, 68] = .ok 3 ⟨[68, 66, 67], 3, 1, 3⟩ := by
  decide

/-- C22 (consuming everything does not reset the cursor): in every state
satisfying the invariants `buf_consume(b, len)` returns with `len = 0`,
`buf_data_contig = 0`, `start = (start + len) mod capacity` and
`buf_space_contig = capacity - start`, which is less than the capacity when
the new `start` is not 0. -/
theorem buf_consume_all (b : buf) (hwf : WF b) (hinv : Inv b) :
    ∃ b', buf_consume b b.len = .ok () b' ∧ b'.len = 0 ∧ buf_data_contig b' = 0 ∧
      b'.start = (b.start + b.len) % b.buflen ∧
      buf_space_contig b' = b.buflen - b'.start ∧
      (b'.start ≠ 0 → buf_space_contig b' < b.buflen) := by
  refine ⟨_, buf_consume_eq b b.len hwf hinv (Nat.le_refl _), by simp, ?_, rfl, ?_, ?_⟩
  all_goals
    obtain ⟨_, hmax⟩ := hwf
    obtain ⟨hs, hl⟩ := hinv
    unfold PTRDIFF_MAX at hmax
    have hm : (b.start + b.len) % b.buflen < b.buflen := Nat.mod_lt _ (by omega)
    have e1 : sz_add ((b.start + b.len) % b.buflen) 0 = (b.start + b.len) % b.buflen := by
      rw [sz_add_small (by unfold SIZE_MOD; omega)]; rfl
    have e2 : sz_sub b.buflen ((b.start + b.len) % b.buflen)
        = b.buflen - (b.start + b.len) % b.buflen :=
      sz_sub_small (by omega) (by unfold SIZE_MOD; omega)
    have c1 : ¬ b.buflen < (b.start + b.len) % b.buflen := by omega
    have c2 : (b.start + b.len) % b.buflen ≤ b.buflen := by omega
  · simp [buf_data_contig, e1, c1]
  · simp [buf_space_contig, e1, e2, c2]
  · intro h
    simp [buf_space_contig, e1, e2, c2]
    simp at h
    omega

/-- Witness of C22: two bytes appended to a fresh buffer of capacity 3 and
then consumed; `buf_space_contig` is 1, not 3. -/
theorem buf_consume_all_witness :
    buf_append_circ fresh3 [65, 66] = .ok 2 ⟨[65, 66, 255], 3, 0, 2⟩ ∧
    WF ⟨[65, 66, 255], 3, 0, 2⟩ ∧ Inv ⟨[65, 66, 255], 3, 0, 2⟩ ∧
    buf_consume ⟨[65, 66, 255], 3, 0, 2⟩ 2 = .ok () ⟨[65, 66, 255], 3, 2, 0⟩ ∧
    buf_space_contig ⟨[65, 66, 255], 3, 2, 0⟩ = 1 ∧
    ∃ b', buf_consume ⟨[65, 66, 255], 3, 0, 2⟩ 2 = .ok () b' ∧ b'.len = 0 ∧
      buf_data_contig b' = 0 ∧ b'.start = (0 + 2) % 3 ∧
      buf_space_contig b' = 3 - b'.start ∧ (b'.start ≠ 0 → buf_space_contig b' < 3) :=
  ⟨by decide, by decide, by decide, by decide, by decide,
    buf_consume_all ⟨[65, 66, 255], 3, 0, 2⟩ (by decide) (by decide)⟩

/-- C23 (the two physical runs of a wrapped region): in every wrapped state
satisfying the invariants `buf_data_contig` is `capacity - start`, the size of
the run `[start, capacity)`; the rest, `len - buf_data_contig`, is
`(start + len) mod capacity`, the size of the run from offset 0; the two sizes
add up to `len` and neither is 0. -/
theorem wrapped_two_runs (b : buf) (hwf : WF b) (hinv : Inv b)
    (hw : b.buflen < b.start + b.len) :
    buf_data_contig b = b.buflen - b.start ∧
    b.len - buf_data_contig b = (b.start + b.len) % b.buflen ∧
    buf_data_contig b + (b.start + b.len) % b.buflen = b.len ∧
    0 < buf_data_contig b ∧ 0 < (b.start + b.len) % b.buflen := by
  obtain ⟨_, hmax⟩ := hwf
  obtain ⟨hs, hl⟩ := hinv
  unfold PTRDIFF_MAX at hmax
  have e1 : sz_add b.start b.len = b.start + b.len := sz_add_small (by unfold SIZE_MOD; omega)
  have e2 : sz_sub b.buflen b.start = b.buflen - b.start :=
    sz_sub_small (by omega) (by unfold SIZE_MOD; omega)
  have e3 : buf_data_contig b = b.buflen - b.start := by
    simp [buf_data_contig, e1, e2, hw]
  have e4 : (b.start + b.len) % b.buflen = b.start + b.len - b.buflen :=
    mod_once (by omega) (by omega)
  rw [e3, e4]
  omega

/-- Witness of C23: `wrapped3` holds one byte at offset 2 and one at
offset 0. -/
theorem wrapped_two_runs_witness :
    WF wrapped3 ∧ Inv wrapped3 ∧ wrapped3.buflen < wrapped3.start + wrapped3.len ∧
    buf_data_contig wrapped3 = 3 - 2 ∧
    2 - buf_data_contig wrapped3 = (2 + 2) % 3 ∧
    buf_data_contig wrapped3 + (2 + 2) % 3 = 2 ∧
    0 < buf_data_contig wrapped3 ∧ 0 < (2 + 2) % 3 :=
  ⟨by decide, by decide, by decide,
    wrapped_two_runs wrapped3 (by decide) (by decide) (by decide)⟩

/-! ## Further lemmas on the calls -/

/-- The effect of a `memcpy` that stays inside the array, byte by byte. -/
theorem memcpy_ok (b : buf) (dst : Nat) (src : List u8) (n : Nat)
    (h1 : dst + n ≤ b.data.length) (h2 : n ≤ src.length) :
    ∃ b', memcpy b dst src n = .ok () b' ∧ b'.start = b.start ∧ b'.len = b.len ∧
      b'.buflen = b.buflen ∧ b'.data.length = b.data.length ∧
      ∀ o, b'.data[o]? = if dst ≤ o ∧ o < dst + n then src[o - dst]? else b.data[o]? := by
  by_cases hn : n = 0
  · refine ⟨b, by simp [memcpy, hn], rfl, rfl, rfl, rfl, ?_⟩
    intro o
    have : ¬ (dst ≤ o ∧ o < dst + n) := by omega
    rw [if_neg this]
  · refine ⟨{ b with data := b.data.take dst ++ src.take n ++ b.data.drop (dst + n) },
      by simp [memcpy, hn, h1, h2], rfl, rfl, rfl, by simp; omega, ?_⟩
    intro o
    simp only
    by_cases c1 : o < dst
    · have : ¬ (dst ≤ o ∧ o < dst + n) := by omega
      rw [if_neg this, List.append_assoc, List.getElem?_append_left (by simp; omega),
        List.getElem?_take_of_lt c1]
    · by_cases c2 : o < dst + n
      · have : dst ≤ o ∧ o < dst + n := by omega
        have la : (b.data.take dst).length = dst := by simp; omega
        rw [if_pos this, List.append_assoc, List.getElem?_append_right (by simp; omega), la,
          List.getElem?_append_left (by simp; omega), List.getElem?_take_of_lt (by omega)]
      · have : ¬ (dst ≤ o ∧ o < dst + n) := by omega
        have la : (b.data.take dst ++ src.take n).length = dst + n := by simp; omega
        rw [if_neg this, List.getElem?_append_right (by simp; omega), la, List.getElem?_drop]
        congr 1; omega

/-- A `buf_shift` that returns leaves `len` and `buflen` as they were. -/
theorem buf_shift_keeps_space (b : buf) (u : Unit) (b1 : buf) (h : buf_shift b = .ok u b1) :
    b1.len = b.len ∧ b1.buflen = b.buflen := by
  unfold buf_shift at h
  by_cases h1 : b.len ≤ b.buflen
  · by_cases h2 : b.start < b.buflen
    · by_cases h3 : b.len > 0 ∧ b.start > 0
      · by_cases h4 : b.start + b.len ≤ b.data.length
        · have hne : b.len ≠ 0 := by omega
          simp [ASSERT, Res.andThen, memmove0, h1, h2, h3, h4, hne] at h
          obtain ⟨_, rfl⟩ := h
          exact ⟨rfl, rfl⟩
        · have hne : b.len ≠ 0 := by omega
          simp [ASSERT, Res.andThen, memmove0, h1, h2, h3, h4, hne] at h
      · simp [ASSERT, Res.andThen, h1, h2, h3] at h
        obtain ⟨_, rfl⟩ := h
        exact ⟨rfl, rfl⟩
    · simp [ASSERT, Res.andThen, h1, h2] at h
  · simp [ASSERT, Res.andThen, h1] at h

/-- A `buf_shift` that is abandoned has not changed the structure. -/
theorem buf_shift_fault_state (b : buf) (f : Fault) (b1 : buf) (h : buf_shift b = .fault f b1) :
    b1 = b := by
  unfold buf_shift at h
  by_cases h1 : b.len ≤ b.buflen
  · by_cases h2 : b.start < b.buflen
    · by_cases h3 : b.len > 0 ∧ b.start > 0
      · by_cases h4 : b.start + b.len ≤ b.data.length
        · have hne : b.len ≠ 0 := by omega
          simp [ASSERT, Res.andThen, memmove0, h1, h2, h3, h4, hne] at h
        · have hne : b.len ≠ 0 := by omega
          simp [ASSERT, Res.andThen, memmove0, h1, h2, h3, h4, hne] at h
          exact h.2.symm
      · simp [ASSERT, Res.andThen, h1, h2, h3] at h
    · simp [ASSERT, Res.andThen, h1, h2] at h
      exact h.2.symm
  · simp [ASSERT, Res.andThen, h1] at h
    exact h.2.symm

/-- The value of `buf_after` for a pointer inside the valid data or at its
end. -/
theorem buf_after_in_range (b : buf) (off : Nat) (hwf : WF b) (hinv : Inv b)
    (h1 : b.start ≤ off) (h2 : off ≤ b.start + b.len) :
    buf_after b off = .ok (b.start + b.len - off) b := by
  obtain ⟨_, hmax⟩ := hwf
  obtain ⟨hs, hl⟩ := hinv
  unfold PTRDIFF_MAX at hmax
  have d0 : (off : Int) - (b.start : Int) ≥ 0 := by omega
  have dn : ((off : Int) - (b.start : Int)).toNat = off - b.start := by omega
  have dm : (off - b.start) % SIZE_MOD = off - b.start :=
    Nat.mod_eq_of_lt (by unfold SIZE_MOD; omega)
  have dl : off - b.start ≤ b.len := by omega
  have e : sz_sub b.len (off - b.start) = b.start + b.len - off := by
    rw [sz_sub_small dl (by unfold SIZE_MOD; omega)]; omega
  simp [buf_after, ASSERT, Res.andThen, d0, dn, dm, dl, e]

/-! ## The claims on `buf_after`, the appends, the space and `buf_consume` -/

/-- C33 (`buf_after` returns `start + len - offset` for a pointer between
`start` and `start + len` and 0 for every other pointer): the first half holds,
but for a pointer of the array outside that range the call is abandoned on one
of the two `ASSERT`s instead of returning 0 as the comment of the function
says. -/
theorem buf_after_outside_asserts (b : buf) (off : Nat) (hwf : WF b) (hinv : Inv b)
    (hobj : off ≤ b.buflen) :
    (b.start ≤ off ∧ off ≤ b.start + b.len →
      buf_after b off = .ok (b.start + b.len - off) b) ∧
    (off < b.start ∨ b.start + b.len < off → buf_after b off = .fault .assertion b) := by
  refine ⟨fun h => buf_after_in_range b off hwf hinv h.1 h.2, ?_⟩
  intro hout
  obtain ⟨_, hmax⟩ := hwf
  obtain ⟨hs, hl⟩ := hinv
  unfold PTRDIFF_MAX at hmax
  by_cases hlt : off < b.start
  · have d0 : ¬ ((off : Int) - (b.start : Int) ≥ 0) := by omega
    simp [buf_after, ASSERT, Res.andThen, d0]
  · have d0 : (off : Int) - (b.start : Int) ≥ 0 := by omega
    have dn : ((off : Int) - (b.start : Int)).toNat = off - b.start := by omega
    have dm : (off - b.start) % SIZE_MOD = off - b.start :=
      Nat.mod_eq_of_lt (by unfold SIZE_MOD; omega)
    have dl : ¬ off - b.start ≤ b.len := by omega
    simp [buf_after, ASSERT, Res.andThen, d0, dn, dm, dl]

/-- Witness of C33: in `linear3` (start 1, len 1) the pointers `data + 0` and
`data + 3` are outside the valid data and the call is abandoned; `data + 1` and
`data + 2` give 1 and 0. -/
theorem buf_after_outside_asserts_witness :
    WF linear3 ∧ Inv linear3 ∧ (0 : Nat) ≤ linear3.buflen ∧
    ((0 : Nat) < linear3.start ∨ linear3.start + linear3.len < (0 : Nat)) ∧
    buf_after linear3 (0 : Nat) = .fault .assertion linear3 ∧
    buf_after linear3 3 = .fault .assertion linear3 ∧
    buf_after linear3 1 = .ok 1 linear3 ∧ buf_after linear3 2 = .ok 0 linear3 :=
  ⟨by decide, by decide, by decide, by decide,
    (buf_after_outside_asserts linear3 0 (by decide) (by decide) (by decide)).2 (by decide),
    by decide, by decide, by decide⟩

/-- C34 (`buf_append_circ` on a state that is not wrapped, with
`len + n ≤ buflen`): the call returns `n`, the byte at offset
`(start + len + i) mod buflen` is `s[i]` for every `i < n`, every other byte of
the array is unchanged, `start` is unchanged and `len` has grown by `n`. -/
theorem buf_append_circ_linear (b : buf) (s : List u8) (hwf : WF b) (hinv : Inv b)
    (hlin : b.start + b.len ≤ b.buflen) (hfit : b.len + s.length ≤ b.buflen) :
    ∃ b', buf_append_circ b s = .ok s.length b' ∧ b'.start = b.start ∧
      b'.len = b.len + s.length ∧ b'.buflen = b.buflen ∧ b'.data.length = b.data.length ∧
      (∀ i, i < s.length → b'.data[(b.start + b.len + i) % b.buflen]? = s[i]?) ∧
      (∀ o, (∀ i, i < s.length → o ≠ (b.start + b.len + i) % b.buflen) →
        b'.data[o]? = b.data[o]?) := by
  obtain ⟨hd, hmax⟩ := hwf
  obtain ⟨hs, hl⟩ := hinv
  unfold PTRDIFF_MAX at hmax
  have e1 : sz_add b.len s.length = b.len + s.length :=
    sz_add_small (by unfold SIZE_MOD; omega)
  have e2 : sz_add b.start b.len = b.start + b.len :=
    sz_add_small (by unfold SIZE_MOD; omega)
  have e3 : sz_sub b.buflen (b.start + b.len) = b.buflen - (b.start + b.len) :=
    sz_sub_small hlin (by unfold SIZE_MOD; omega)
  have c1 : ¬ b.buflen < b.len + s.length := by omega
  have hcontig : buf_space_contig b = b.buflen - (b.start + b.len) := by
    simp [buf_space_contig, e2, e3, hlin]
  have hfin : ∀ b1 : buf, b1.start = b.start → b1.len = b.len → b1.buflen = b.buflen →
      ((ASSERT (decide (sz_add b1.len s.length ≤ b1.buflen))
          { b1 with len := sz_add b1.len s.length }).andThen fun _ b2 =>
        (ASSERT (decide (b2.start < b2.buflen)) b2).andThen fun _ b3 =>
          (Res.ok s.length b3 : Res Nat))
        = .ok s.length { b1 with len := b.len + s.length } := by
    intro b1 h1 h2 h3
    have a1 : b.len + s.length ≤ b1.buflen := by omega
    have a2 : b1.start < b1.buflen := by omega
    simp [ASSERT, Res.andThen, h2, e1, a1, a2]
  have hmodlt : ∀ i, b.start + b.len + i < b.buflen →
      (b.start + b.len + i) % b.buflen = b.start + b.len + i := fun i h => Nat.mod_eq_of_lt h
  have hmodge : ∀ i, i < s.length → b.buflen ≤ b.start + b.len + i →
      (b.start + b.len + i) % b.buflen = b.start + b.len + i - b.buflen :=
    fun i hi h => mod_once h (by omega)
  by_cases hc : s.length ≤ b.buflen - (b.start + b.len)
  · -- one copy
    obtain ⟨b1, m1, s1, l1, f1, d1, p1⟩ := memcpy_ok b (b.start + b.len) s s.length
      (by omega) (Nat.le_refl _)
    refine ⟨{ b1 with len := b.len + s.length }, ?_, s1, rfl, f1, d1, ?_, ?_⟩
    · unfold buf_append_circ
      simp only [buf_len, buf_buflen, e1, c1, if_false, hcontig, hc, if_true, e2, m1,
        Res.andThen]
      exact hfin b1 s1 l1 f1
    · intro i hi
      simp only
      rw [hmodlt i (by omega), p1, if_pos (by omega)]
      congr 1; omega
    · intro o ho
      simp only
      rw [p1]
      by_cases hin : b.start + b.len ≤ o ∧ o < b.start + b.len + s.length
      · exfalso
        apply ho (o - (b.start + b.len)) (by omega)
        rw [hmodlt _ (by omega)]; omega
      · rw [if_neg hin]
  · -- two copies
    have hc' : b.buflen - (b.start + b.len) < s.length := by omega
    have e4 : sz_sub s.length (b.buflen - (b.start + b.len))
        = s.length - (b.buflen - (b.start + b.len)) :=
      sz_sub_small (by omega) (by unfold SIZE_MOD; omega)
    obtain ⟨b1, m1, s1, l1, f1, d1, p1⟩ := memcpy_ok b (b.start + b.len) s
      (b.buflen - (b.start + b.len)) (by omega) (by omega)
    obtain ⟨b2, m2, s2, l2, f2, d2, p2⟩ := memcpy_ok b1 0
      (s.drop (b.buflen - (b.start + b.len))) (s.length - (b.buflen - (b.start + b.len)))
      (by omega) (by simp)
    refine ⟨{ b2 with len := b.len + s.length }, ?_, by simp only; omega, rfl,
      by simp only; omega, by simp only; omega, ?_, ?_⟩
    · unfold buf_append_circ
      simp only [buf_len, buf_buflen, e1, c1, if_false, hcontig, hc, e2, m1, e4, m2,
        Res.andThen]
      exact hfin b2 (by omega) (by omega) (by omega)
    · intro i hi
      simp only
      by_cases hlow : b.start + b.len + i < b.buflen
      · rw [hmodlt i hlow, p2, if_neg (by omega), p1, if_pos (by omega)]
        congr 1; omega
      · rw [hmodge i hi (by omega), p2, if_pos (by omega), List.getElem?_drop]
        congr 1; omega
    · intro o ho
      simp only
      rw [p2]
      by_cases hin2 : 0 ≤ o ∧ o < 0 + (s.length - (b.buflen - (b.start + b.len)))
      · exfalso
        apply ho (o + (b.buflen - (b.start + b.len))) (by omega)
        rw [hmodge _ (by omega) (by omega)]; omega
      · rw [if_neg hin2, p1]
        by_cases hin : b.start + b.len ≤ o ∧
            o < b.start + b.len + (b.buflen - (b.start + b.len))
        · exfalso
          apply ho (o - (b.start + b.len)) (by omega)
          rw [hmodlt _ (by omega)]; omega
        · rw [if_neg hin]

/-- Witness of C34: `A` appended to `at_end3` (start 1, len 2, capacity 3)
goes to offset 0. -/
theorem buf_append_circ_linear_witness :
    WF at_end3 ∧ Inv at_end3 ∧ at_end3.start + at_end3.len ≤ at_end3.buflen ∧
    at_end3.len + [(65 : u8)].length ≤ at_end3.buflen ∧
    buf_append_circ at_end3 [65] = .ok 1 ⟨[65, 89, 90], 3, 1, 3⟩ ∧
    ∃ b', buf_append_circ at_end3 [65] = .ok [(65 : u8)].length b' ∧
      b'.start = at_end3.start ∧ b'.len = at_end3.len + [(65 : u8)].length ∧
      b'.buflen = at_end3.buflen ∧ b'.data.length = at_end3.data.length ∧
      (∀ i, i < [(65 : u8)].length →
        b'.data[(at_end3.start + at_end3.len + i) % at_end3.buflen]? = [(65 : u8)][i]?) ∧
      (∀ o, (∀ i, i < [(65 : u8)].length →
          o ≠ (at_end3.start + at_end3.len + i) % at_end3.buflen) →
        b'.data[o]? = at_end3.data[o]?) :=
  ⟨by decide, by decide, by decide, by decide, by decide,
    buf_append_circ_linear at_end3 [65] (by decide) (by decide) (by decide) (by decide)⟩

/-- C35 (the final `ASSERT(b->len < b->buflen)` of `buf_append` holds for
every call with `n ≤ buf_space(b)`): it does not; an append of `n > 0` bytes
that fills a buffer with `start = 0` exactly stores the bytes, sets
`len = buflen` and is then abandoned on that assertion, which is strict where
the check before the copy (`len <= buf_space(b)`) and the assertion of
`buf_append_circ` are not. -/
theorem buf_append_exact_fill_asserts (b : buf) (s : List u8) (hwf : WF b) (hinv : Inv b)
    (h0 : b.start = 0) (hn : 0 < s.length) (hfill : s.length = buf_space b) :
    s.length ≤ buf_space b ∧
    buf_append b s = .fault .assertion
      { b with data := b.data.take b.len ++ s ++ b.data.drop (b.len + s.length),
               len := b.buflen } := by
  obtain ⟨hd, hmax⟩ := hwf
  obtain ⟨hs, hl⟩ := hinv
  unfold PTRDIFF_MAX at hmax
  have e1 : sz_sub b.buflen b.len = b.buflen - b.len :=
    sz_sub_small hl (by unfold SIZE_MOD; omega)
  have hsp : buf_space b = b.buflen - b.len := e1
  have e2 : sz_add b.start b.len = b.len := by
    rw [h0]; exact (sz_add_small (by unfold SIZE_MOD; omega)).trans (Nat.zero_add _)
  have e3 : sz_add b.len s.length = b.buflen := by
    rw [sz_add_small (by unfold SIZE_MOD; omega)]; omega
  have hA : ¬ buf_space b < s.length := by omega
  have hne : s.length ≠ 0 := by omega
  have hin : b.len + s.length ≤ b.data.length := by omega
  refine ⟨by omega, ?_⟩
  simp [buf_append, buf_end, ASSERT, Res.andThen, memcpy, hA, hne, hin, e2, e3]

/-- Witness of C35: two bytes appended to `half4` (capacity 4, two bytes
held); `buf_append_circ` accepts the same call. -/
theorem buf_append_exact_fill_asserts_witness :
    WF half4 ∧ Inv half4 ∧ half4.start = 0 ∧ [3, 4].length = buf_space half4 ∧
    buf_append half4 [3, 4] = .fault .assertion ⟨[1, 2, 3, 4], 4, 0, 4⟩ ∧
    buf_append_circ half4 [3, 4] = .ok 2 ⟨[1, 2, 3, 4], 4, 0, 4⟩ :=
  ⟨by decide, by decide, by decide, by decide,
    (buf_append_exact_fill_asserts half4 [3, 4] (by decide) (by decide) (by decide) (by decide)
      (by decide)).2,
    by decide⟩

/-- C36 (`buf_space` is `buflen - len`, `buf_shift` does not change it, and
`buf_append` of more than `buflen - len` bytes is rejected): a `buf_shift`
that returns leaves `buf_space` unchanged; when `n > buf_space(b)` the append
is abandoned with `len` and `buf_space` as before, in a state that is not
wrapped on the `assert(len <= buf_space(b))` that follows the compaction; when
`n ≤ buf_space(b)` that check is not made and the call goes on to the copy. -/
theorem buf_append_full_rejected (b : buf) (s : List u8) (hwf : WF b) (hinv : Inv b) :
    buf_space b = b.buflen - b.len ∧
    (∀ u b1, buf_shift b = .ok u b1 → buf_space b1 = buf_space b) ∧
    (buf_space b < s.length →
      ∃ f b1, buf_append b s = .fault f b1 ∧ b1.len = b.len ∧ buf_space b1 = buf_space b ∧
        (b.start + b.len ≤ b.buflen → f = .assertion)) ∧
    (s.length ≤ buf_space b →
      buf_append b s = (memcpy b (buf_end b) s s.length).andThen fun _ b1 =>
        (ASSERT (decide (sz_add b1.len s.length < b1.buflen))
          { b1 with len := sz_add b1.len s.length }).andThen fun _ b2 => .ok s.length b2) := by
  have hsp : ∀ u b1, buf_shift b = .ok u b1 → buf_space b1 = buf_space b := by
    intro u b1 h
    obtain ⟨h1, h2⟩ := buf_shift_keeps_space b u b1 h
    simp [buf_space, h1, h2]
  have e1 : sz_sub b.buflen b.len = b.buflen - b.len := by
    obtain ⟨_, hmax⟩ := hwf
    unfold PTRDIFF_MAX at hmax
    exact sz_sub_small hinv.2 (by unfold SIZE_MOD; omega)
  refine ⟨e1, hsp, ?_, ?_⟩
  · intro hfull
    by_cases h0 : b.start = 0
    · refine ⟨.assertion, b, ?_, rfl, rfl, fun _ => rfl⟩
      have hA : ¬ s.length ≤ buf_space b := by omega
      simp [buf_append, ASSERT, Res.andThen, hfull, hA, h0]
    · cases hsh : buf_shift b with
      | ok u b1 =>
        have hk := hsp u b1 hsh
        obtain ⟨hl, _⟩ := buf_shift_keeps_space b u b1 hsh
        refine ⟨.assertion, b1, ?_, hl, hk, fun _ => rfl⟩
        have hA : ¬ s.length ≤ buf_space b1 := by omega
        simp [buf_append, ASSERT, Res.andThen, hfull, hA, h0, hsh]
      | fault f b1 =>
        have hb := buf_shift_fault_state b f b1 hsh
        subst hb
        refine ⟨f, b1, ?_, rfl, rfl, ?_⟩
        · simp [buf_append, Res.andThen, hfull, h0, hsh]
        · intro hlin
          rw [buf_shift_eq b1 hwf hinv hlin] at hsh
          cases hsh
  · intro hfit
    have hA : ¬ buf_space b < s.length := by omega
    simp [buf_append, Res.andThen, hA]

/-- Witness of C36: three bytes for `linear3` (capacity 3, one byte held at
offset 1); the buffer is compacted and the append rejected. -/
theorem buf_append_full_rejected_witness :
    WF linear3 ∧ Inv linear3 ∧ buf_space linear3 < [7, 8, 9].length ∧
    linear3.start + linear3.len ≤ linear3.buflen ∧
    buf_space linear3 = 2 ∧
    buf_shift linear3 = .ok () ⟨[2, 2, 255], 3, 0, 1⟩ ∧
    buf_space ⟨[2, 2, 255], 3, 0, 1⟩ = 2 ∧
    buf_append linear3 [7, 8, 9] = .fault .assertion ⟨[2, 2, 255], 3, 0, 1⟩ ∧
    ∃ f b1, buf_append linear3 [7, 8, 9] = .fault f b1 ∧ b1.len = linear3.len ∧
      buf_space b1 = buf_space linear3 ∧
      (linear3.start + linear3.len ≤ linear3.buflen → f = .assertion) :=
  ⟨by decide, by decide, by decide, by decide, by decide, by decide, by decide, by decide,
    (buf_append_full_rejected linear3 [7, 8, 9] (by decide) (by decide)).2.2.1 (by decide)⟩

/-- C37 (`buf_space_contig(b) ≤ buf_space(b) = buflen - len`, with equality
exactly when `start = 0` or the state is wrapped). -/
theorem buf_space_contig_le_space (b : buf) (hwf : WF b) (hinv : Inv b) :
    buf_space_contig b ≤ buf_space b ∧ buf_space b = b.buflen - b.len ∧
    (buf_space_contig b = buf_space b ↔ (b.start = 0 ∨ b.buflen < b.start + b.len)) := by
  obtain ⟨_, hmax⟩ := hwf
  obtain ⟨hs, hl⟩ := hinv
  unfold PTRDIFF_MAX at hmax
  have e0 : buf_space b = b.buflen - b.len := by
    unfold buf_space; exact sz_sub_small hl (by unfold SIZE_MOD; omega)
  have e1 : sz_add b.start b.len = b.start + b.len := sz_add_small (by unfold SIZE_MOD; omega)
  by_cases hw : b.start + b.len ≤ b.buflen
  · have e2 : sz_sub b.buflen (b.start + b.len) = b.buflen - (b.start + b.len) :=
      sz_sub_small (by omega) (by unfold SIZE_MOD; omega)
    have e3 : buf_space_contig b = b.buflen - (b.start + b.len) := by
      simp [buf_space_contig, e1, e2, hw]
    rw [e3, e0]
    omega
  · have e2 : sz_sub (b.start + b.len) b.buflen = b.start + b.len - b.buflen :=
      sz_sub_small (by omega) (by unfold SIZE_MOD; omega)
    have e3 : sz_sub b.start (b.start + b.len - b.buflen)
        = b.start - (b.start + b.len - b.buflen) :=
      sz_sub_small (by omega) (by unfold SIZE_MOD; omega)
    have e4 : buf_space_contig b = b.start - (b.start + b.len - b.buflen) := by
      simp [buf_space_contig, e1, e2, e3, hw]
    rw [e4, e0]
    omega

/-- Witness of C37: in `wrapped3` both are 1; in `linear3` (start 1, not
wrapped) the contiguous space is 1 of 2. -/
theorem buf_space_contig_le_space_witness :
    WF wrapped3 ∧ Inv wrapped3 ∧ buf_space_contig wrapped3 = 1 ∧ buf_space wrapped3 = 1 ∧
    buf_space_contig linear3 = 1 ∧ buf_space linear3 = 2 ∧
    (buf_space_contig wrapped3 ≤ buf_space wrapped3 ∧
      buf_space wrapped3 = wrapped3.buflen - wrapped3.len ∧
      (buf_space_contig wrapped3 = buf_space wrapped3 ↔
        (wrapped3.start = 0 ∨ wrapped3.buflen < wrapped3.start + wrapped3.len))) :=
  ⟨by decide, by decide, by decide, by decide, by decide, by decide,
    buf_space_contig_le_space wrapped3 (by decide) (by decide)⟩

/-- C38 (`buf_consume` is additive): for `m + n ≤ len`, `buf_consume(b, m)`
followed by `buf_consume(b, n)` returns with the same structure and array as
`buf_consume(b, m + n)`, which returns. -/
theorem buf_consume_additive (b : buf) (m n : Nat) (hwf : WF b) (hinv : Inv b)
    (h : m + n ≤ b.len) :
    (buf_consume b m).andThen (fun _ b' => buf_consume b' n) = buf_consume b (m + n) ∧
    buf_consume b (m + n)
      = .ok () { b with start := (b.start + (m + n)) % b.buflen, len := b.len - (m + n) } := by
  have hpos : 0 < b.buflen := by have := hinv.1; omega
  refine ⟨?_, buf_consume_eq b (m + n) hwf hinv h⟩
  rw [buf_consume_eq b m hwf hinv (by omega), buf_consume_eq b (m + n) hwf hinv h]
  simp only [Res.andThen]
  have hwf' : WF { b with start := (b.start + m) % b.buflen, len := b.len - m } := hwf
  have hinv' : Inv { b with start := (b.start + m) % b.buflen, len := b.len - m } :=
    ⟨Nat.mod_lt _ hpos, by have := hinv.2; show b.len - m ≤ b.buflen; omega⟩
  rw [buf_consume_eq _ n hwf' hinv' (by show n ≤ b.len - m; omega)]
  simp only [Nat.mod_add_mod, Nat.add_assoc, Nat.sub_sub]

/-- Witness of C38: one byte and then two bytes consumed
from `full3`, against three at once. -/
theorem buf_consume_additive_witness :
    WF full3 ∧ Inv full3 ∧ 1 + 2 ≤ full3.len ∧
    buf_consume full3 1 = .ok () ⟨[65, 66, 67], 3, 1, 2⟩ ∧
    buf_consume ⟨[65, 66, 67], 3, 1, 2⟩ 2 = .ok () ⟨[65, 66, 67], 3, 0, 0⟩ ∧
    ((buf_consume full3 1).andThen (fun _ b' => buf_consume b' 2) = buf_consume full3 (1 + 2) ∧
      buf_consume full3 (1 + 2)
        = .ok () { full3 with start := (full3.start + (1 + 2)) % full3.buflen,
                              len := full3.len - (1 + 2) }) :=
  ⟨by decide, by decide, by decide, by decide, by decide,
    buf_consume_additive full3 1 2 (by decide) (by decide) (by decide)⟩

/-! ## The linear append with the macro `buf_space` as a parameter -/

/-- The function `buf_append` is `buf_append_with` at the macro modelled from
the spec. -/
theorem buf_append_with_buf_space (b : buf) (s : List u8) :
    buf_append_with buf_space b s = buf_append b s := rfl

end Buf

/-! # Properties of the array accesses -/

theorem Run.load_ofNat {α : Type} (m : List α) (i : Nat) (x : α) (h : m[i]? = some x) :
    Run.load m (i : Int) = .done x := by
  simp [Run.load, h]

theorem Run.store_ofNat {α : Type} (m : List α) (i : Nat) (x : α) (h : i < m.length) :
    Run.store m (i : Int) x = .done (m.set i x) := by
  have : (i : Int) < m.length := by exact_mod_cast h
  simp [Run.store, this]

theorem Run.load_cast {α : Type} (m : List α) (i : Nat) :
    Run.load m (i : Int) = match m[i]? with | some x => .done x | none => .bad_access := by
  simp [Run.load]

/-! # Properties of `strrev.c` -/

namespace Strrev

/-- The content `dst` must have after a reversal of `src` into it. -/
theorem target_getElem (src tail : List char) (k : Nat) (hk : k < src.length) :
    (src.reverse ++ tail)[k]? = src[src.length - 1 - k]? := by
  rw [List.getElem?_append_left (by simpa using hk), List.getElem?_reverse hk]

theorem settled_all (T : List char) (len i : Nat) (d : List char) (h : Settled T len i d)
    (hi : len ≤ 2 * i) : d = T := by
  apply List.ext_getElem? 
  intro k
  apply h.2
  omega

theorem swap_loop_done (src tail : List char) (len : Nat) (hlen : src.length = len)
    (hpos : 0 < len) :
    ∀ (fuel i : Nat) (d : List char), Settled (src.reverse ++ tail) len i d →
      i ≤ len / 2 + 1 → len / 2 + 1 - i < fuel →
      swap_loop src len ((len / 2 : Nat) : Int) fuel i d = .done (src.reverse ++ tail) := by
  intro fuel
  induction fuel with
  | zero => intro i d _ _ h; omega
  | succ fuel ih =>
    intro i d hs hi hf
    unfold swap_loop
    by_cases hc : i ≤ len / 2
    · have hc' : (i : Int) ≤ ((len / 2 : Nat) : Int) := by exact_mod_cast hc
      have hlt : i < len := by omega
      have hT : (src.reverse ++ tail).length = len + tail.length := by simp [hlen]
      have hd : d.length = len + tail.length := by rw [hs.1, hT]
      have e1 : (len : Int) - 1 - (i : Int) = ((len - 1 - i : Nat) : Int) := by omega
      obtain ⟨a, ha⟩ : ∃ a, src[len - 1 - i]? = some a :=
        ⟨src[len - 1 - i], by rw [List.getElem?_eq_getElem]⟩
      obtain ⟨b, hb⟩ : ∃ b, src[i]? = some b := ⟨src[i], by rw [List.getElem?_eq_getElem]⟩
      rw [if_pos hc', e1, Run.load_ofNat src _ a ha]
      simp only [Run.bind]
      rw [Run.store_ofNat d i a (by omega)]
      simp only [Run.bind]
      rw [Run.load_ofNat src i b hb]
      simp only [Run.bind]
      rw [Run.store_ofNat _ (len - 1 - i) b (by simp; omega)]
      simp only [Run.bind]
      have := ih (i + 1) ((d.set i a).set (len - 1 - i) b) ?_ (by omega) (by omega)
      · simpa using this
      · refine ⟨by simp [hs.1], ?_⟩
        intro k hk
        have tk := target_getElem src tail
        rw [hlen] at tk
        by_cases h1 : k = len - 1 - i
        · subst h1
          rw [List.getElem?_set_self (by simp; omega), tk _ (by omega), ← hb]
          congr 1; omega
        · rw [List.getElem?_set_ne (by omega)]
          by_cases h2 : k = i
          · subst h2
            rw [List.getElem?_set_self (by omega), tk _ (by omega), ← ha]
          · rw [List.getElem?_set_ne (by omega)]
            apply hs.2
            omega
    · have hc' : ¬ (i : Int) ≤ ((len / 2 : Nat) : Int) := by
        intro h; exact hc (by exact_mod_cast h)
      rw [if_neg hc']
      rw [settled_all _ len i d hs (by omega)]

theorem settled_init (src dst : List char) (len : Nat) (hlen : src.length = len)
    (hdst : len ≤ dst.length) : Settled (src.reverse ++ dst.drop len) len 0 dst := by
  refine ⟨by simp [hlen]; omega, ?_⟩
  intro k hk
  have hk' : len ≤ k := by omega
  rw [List.getElem?_append_right (by simpa [hlen] using hk')]
  simp [hlen]
  congr 1; omega

theorem obvious_eq (fuel : Nat) (dst src : List char) (len : Nat)
    (hlen : src.length = len) (hdst : len ≤ dst.length) (hfuel : len / 2 + 1 < fuel) :
    obvious fuel dst src len = .done (src.reverse ++ dst.drop len) := by
  unfold obvious
  by_cases h0 : len = 0
  · subst h0
    have : src = [] := by simpa using hlen
    simp [this]
  · rw [if_pos h0]
    exact swap_loop_done src (dst.drop len) len hlen (by omega) fuel 0 dst
      (settled_init src dst len hlen hdst) (by omega) (by omega)

theorem copy64_spec (src tail d : List char) (len : Nat) (a s : Int)
    (hlen : src.length = len) (hd : d.length = (src.reverse ++ tail).length)
    (ha : 0 ≤ a) (hs : 0 ≤ s) (has : a + s + 8 = len) :
    ∃ d', copy64 d src a s = .done d' ∧ d'.length = (src.reverse ++ tail).length ∧
      ∀ k : Nat, d'[k]? =
        if a ≤ (k : Int) ∧ (k : Int) < a + 8 then (src.reverse ++ tail)[k]? else d[k]? := by
  obtain ⟨a, rfl⟩ := Int.eq_ofNat_of_zero_le ha
  obtain ⟨s, rfl⟩ := Int.eq_ofNat_of_zero_le hs
  have hT : (src.reverse ++ tail).length = len + tail.length := by simp [hlen]
  have has' : a + s + 8 = len := by exact_mod_cast has
  have c1 : (0 : Int) ≤ (s : Int) ∧ (s : Int) + 8 ≤ (src.length : Int) := by
    constructor <;> omega
  have c2 : (0 : Int) ≤ (a : Int) ∧ (a : Int) + 8 ≤ (d.length : Int) := by
    constructor <;> omega
  have hw : ((src.drop s).take 8).length = 8 := by simp; omega
  refine ⟨d.take a ++ ((src.drop s).take 8).reverse ++ d.drop (a + 8), ?_, ?_, ?_⟩
  · simp [copy64, load64, store64, bswap64, Run.bind, c1, c2]
  · simp; omega
  · intro k
    have tk := target_getElem src tail
    by_cases h1 : k < a
    · have : ¬ ((a : Int) ≤ (k : Int) ∧ (k : Int) < (a : Int) + 8) := by omega
      rw [if_neg this, List.append_assoc, List.getElem?_append_left (by simp; omega)]
      rw [List.getElem?_take_of_lt h1]
    · by_cases h2 : k < a + 8
      · have : ((a : Int) ≤ (k : Int) ∧ (k : Int) < (a : Int) + 8) := by omega
        rw [if_pos this, List.append_assoc, List.getElem?_append_right (by simp; omega)]
        have la : (d.take a).length = a := by simp; omega
        rw [la, List.getElem?_append_left (by simp; omega),
          List.getElem?_reverse (by simp; omega), hw,
          List.getElem?_take_of_lt (by omega), List.getElem?_drop, tk k (by omega)]
        congr 1; omega
      · have : ¬ ((a : Int) ≤ (k : Int) ∧ (k : Int) < (a : Int) + 8) := by omega
        rw [if_neg this, List.getElem?_append_right (by simp; omega)]
        have la : (d.take a ++ ((src.drop s).take 8).reverse).length = a + 8 := by
          simp; omega
        rw [la, List.getElem?_drop]
        congr 1; omega

/-- One pass through the body of the first loop of `byte64_w64`: it returns,
and the bytes at the offsets `[i, i + 64)` and `[len - 56 - i, len - i)` of
`dst` are final; the others are unchanged. -/
theorem byte64_w64_block_spec (src tail d0 : List char) (len i : Nat)
    (hlen : src.length = len) (hd : d0.length = (src.reverse ++ tail).length)
    (hi : i + 64 ≤ len / 2) :
    ∃ d', byte64_w64_block d0 src len i = .done d' ∧
      d'.length = (src.reverse ++ tail).length ∧
      ∀ k : Nat, d'[k]? =
        if (i ≤ k ∧ k < i + 64) ∨ (len ≤ k + i + 56 ∧ k + i < len)
        then (src.reverse ++ tail)[k]? else d0[k]? := by
  unfold byte64_w64_block
  have q0 : ∀ k : Nat, d0[k]? =
      if (i ≤ k ∧ k < i + 0) ∨ (len ≤ k + i + 56 ∧ k + i + 56 < len + 0)
      then (src.reverse ++ tail)[k]? else d0[k]? := by
    intro k; split_ifs <;> first | rfl | omega
  obtain ⟨d1, h1, l1, p1⟩ := copy64_spec src tail d0 len ((len : Int) - 56 - (i : Int))
    ((i : Int) + 48) hlen hd (by omega) (by omega) (by omega)
  have q1 : ∀ k : Nat, d1[k]? =
      if (i ≤ k ∧ k < i + 0) ∨ (len ≤ k + i + 56 ∧ k + i + 56 < len + 8)
      then (src.reverse ++ tail)[k]? else d0[k]? := by
    intro k; rw [p1 k, q0 k]; split_ifs <;> first | rfl | omega
  clear p1 q0
  rw [h1]; simp only [Run.bind]
  obtain ⟨d2, h2, l2, p2⟩ := copy64_spec src tail d1 len ((len : Int) - 48 - (i : Int))
    ((i : Int) + 40) hlen l1 (by omega) (by omega) (by omega)
  have q2 : ∀ k : Nat, d2[k]? =
      if (i ≤ k ∧ k < i + 0) ∨ (len ≤ k + i + 56 ∧ k + i + 56 < len + 16)
      then (src.reverse ++ tail)[k]? else d0[k]? := by
    intro k; rw [p2 k, q1 k]; split_ifs <;> first | rfl | omega
  clear p2 q1
  rw [h2]; simp only [Run.bind]
  obtain ⟨d3, h3, l3, p3⟩ := copy64_spec src tail d2 len ((len : Int) - 40 - (i : Int))
    ((i : Int) + 32) hlen l2 (by omega) (by omega) (by omega)
  have q3 : ∀ k : Nat, d3[k]? =
      if (i ≤ k ∧ k < i + 0) ∨ (len ≤ k + i + 56 ∧ k + i + 56 < len + 24)
      then (src.reverse ++ tail)[k]? else d0[k]? := by
    intro k; rw [p3 k, q2 k]; split_ifs <;> first | rfl | omega
  clear p3 q2
  rw [h3]; simp only [Run.bind]
  obtain ⟨d4, h4, l4, p4⟩ := copy64_spec src tail d3 len ((len : Int) - 32 - (i : Int))
    ((i : Int) + 24) hlen l3 (by omega) (by omega) (by omega)
  have q4 : ∀ k : Nat, d4[k]? =
      if (i ≤ k ∧ k < i + 0) ∨ (len ≤ k + i + 56 ∧ k + i + 56 < len + 32)
      then (src.reverse ++ tail)[k]? else d0[k]? := by
    intro k; rw [p4 k, q3 k]; split_ifs <;> first | rfl | omega
  clear p4 q3
  rw [h4]; simp only [Run.bind]
  obtain ⟨d5, h5, l5, p5⟩ := copy64_spec src tail d4 len ((len : Int) - 24 - (i : Int))
    ((i : Int) + 16) hlen l4 (by omega) (by omega) (by omega)
  have q5 : ∀ k : Nat, d5[k]? =
      if (i ≤ k ∧ k < i + 0) ∨ (len ≤ k + i + 56 ∧ k + i + 56 < len + 40)
      then (src.reverse ++ tail)[k]? else d0[k]? := by
    intro k; rw [p5 k, q4 k]; split_ifs <;> first | rfl | omega
  clear p5 q4
  rw [h5]; simp only [Run.bind]
  obtain ⟨d6, h6, l6, p6⟩ := copy64_spec src tail d5 len ((len : Int) - 16 - (i : Int))
    ((i : Int) + 8) hlen l5 (by omega) (by omega) (by omega)
  have q6 : ∀ k : Nat, d6[k]? =
      if (i ≤ k ∧ k < i + 0) ∨ (len ≤ k + i + 56 ∧ k + i + 56 < len + 48)
      then (src.reverse ++ tail)[k]? else d0[k]? := by
    intro k; rw [p6 k, q5 k]; split_ifs <;> first | rfl | omega
  clear p6 q5
  rw [h6]; simp only [Run.bind]
  obtain ⟨d7, h7, l7, p7⟩ := copy64_spec src tail d6 len ((len : Int) - 8 - (i : Int))
    ((i : Int)) hlen l6 (by omega) (by omega) (by omega)
  have q7 : ∀ k : Nat, d7[k]? =
      if (i ≤ k ∧ k < i + 0) ∨ (len ≤ k + i + 56 ∧ k + i + 56 < len + 56)
      then (src.reverse ++ tail)[k]? else d0[k]? := by
    intro k; rw [p7 k, q6 k]; split_ifs <;> first | rfl | omega
  clear p7 q6
  rw [h7]; simp only [Run.bind]
  obtain ⟨d8, h8, l8, p8⟩ := copy64_spec src tail d7 len ((i : Int))
    ((len : Int) - 8 - (i : Int)) hlen l7 (by omega) (by omega) (by omega)
  have q8 : ∀ k : Nat, d8[k]? =
      if (i ≤ k ∧ k < i + 8) ∨ (len ≤ k + i + 56 ∧ k + i + 56 < len + 56)
      then (src.reverse ++ tail)[k]? else d0[k]? := by
    intro k; rw [p8 k, q7 k]; split_ifs <;> first | rfl | omega
  clear p8 q7
  rw [h8]; simp only [Run.bind]
  obtain ⟨d9, h9, l9, p9⟩ := copy64_spec src tail d8 len ((i : Int) + 8)
    ((len : Int) - 16 - (i : Int)) hlen l8 (by omega) (by omega) (by omega)
  have q9 : ∀ k : Nat, d9[k]? =
      if (i ≤ k ∧ k < i + 16) ∨ (len ≤ k + i + 56 ∧ k + i + 56 < len + 56)
      then (src.reverse ++ tail)[k]? else d0[k]? := by
    intro k; rw [p9 k, q8 k]; split_ifs <;> first | rfl | omega
  clear p9 q8
  rw [h9]; simp only [Run.bind]
  obtain ⟨d10, h10, l10, p10⟩ := copy64_spec src tail d9 len ((i : Int) + 16)
    ((len : Int) - 24 - (i : Int)) hlen l9 (by omega) (by omega) (by omega)
  have q10 : ∀ k : Nat, d10[k]? =
      if (i ≤ k ∧ k < i + 24) ∨ (len ≤ k + i + 56 ∧ k + i + 56 < len + 56)
      then (src.reverse ++ tail)[k]? else d0[k]? := by
    intro k; rw [p10 k, q9 k]; split_ifs <;> first | rfl | omega
  clear p10 q9
  rw [h10]; simp only [Run.bind]
  obtain ⟨d11, h11, l11, p11⟩ := copy64_spec src tail d10 len ((i : Int) + 24)
    ((len : Int) - 32 - (i : Int)) hlen l10 (by omega) (by omega) (by omega)
  have q11 : ∀ k : Nat, d11[k]? =
      if (i ≤ k ∧ k < i + 32) ∨ (len ≤ k + i + 56 ∧ k + i + 56 < len + 56)
      then (src.reverse ++ tail)[k]? else d0[k]? := by
    intro k; rw [p11 k, q10 k]; split_ifs <;> first | rfl | omega
  clear p11 q10
  rw [h11]; simp only [Run.bind]
  obtain ⟨d12, h12, l12, p12⟩ := copy64_spec src tail d11 len ((i : Int) + 32)
    ((len : Int) - 40 - (i : Int)) hlen l11 (by omega) (by omega) (by omega)
  have q12 : ∀ k : Nat, d12[k]? =
      if (i ≤ k ∧ k < i + 40) ∨ (len ≤ k + i + 56 ∧ k + i + 56 < len + 56)
      then (src.reverse ++ tail)[k]? else d0[k]? := by
    intro k; rw [p12 k, q11 k]; split_ifs <;> first | rfl | omega
  clear p12 q11
  rw [h12]; simp only [Run.bind]
  obtain ⟨d13, h13, l13, p13⟩ := copy64_spec src tail d12 len ((i : Int) + 40)
    ((len : Int) - 48 - (i : Int)) hlen l12 (by omega) (by omega) (by omega)
  have q13 : ∀ k : Nat, d13[k]? =
      if (i ≤ k ∧ k < i + 48) ∨ (len ≤ k + i + 56 ∧ k + i + 56 < len + 56)
      then (src.reverse ++ tail)[k]? else d0[k]? := by
    intro k; rw [p13 k, q12 k]; split_ifs <;> first | rfl | omega
  clear p13 q12
  rw [h13]; simp only [Run.bind]
  obtain ⟨d14, h14, l14, p14⟩ := copy64_spec src tail d13 len ((i : Int) + 48)
    ((len : Int) - 56 - (i : Int)) hlen l13 (by omega) (by omega) (by omega)
  have q14 : ∀ k : Nat, d14[k]? =
      if (i ≤ k ∧ k < i + 56) ∨ (len ≤ k + i + 56 ∧ k + i + 56 < len + 56)
      then (src.reverse ++ tail)[k]? else d0[k]? := by
    intro k; rw [p14 k, q13 k]; split_ifs <;> first | rfl | omega
  clear p14 q13
  rw [h14]; simp only [Run.bind]
  obtain ⟨d15, h15, l15, p15⟩ := copy64_spec src tail d14 len ((i : Int) + 56)
    ((len : Int) - 64 - (i : Int)) hlen l14 (by omega) (by omega) (by omega)
  have q15 : ∀ k : Nat, d15[k]? =
      if (i ≤ k ∧ k < i + 64) ∨ (len ≤ k + i + 56 ∧ k + i + 56 < len + 56)
      then (src.reverse ++ tail)[k]? else d0[k]? := by
    intro k; rw [p15 k, q14 k]; split_ifs <;> first | rfl | omega
  clear p15 q14
  rw [h15]
  refine ⟨d15, rfl, l15, ?_⟩
  intro k
  rw [q15 k]
  split_ifs <;> first | rfl | omega

theorem byte64_w64_loop_done (src tail : List char) (len : Nat) (hlen : src.length = len) :
    ∀ (fuel i : Nat) (d : List char), Settled (src.reverse ++ tail) len i d →
      i ≤ len / 2 + 1 → len / 2 + 1 - i < fuel →
      ∃ (i' : Nat) (d' : List char),
        byte64_w64_loop src len ((len / 2 : Nat) : Int) fuel i d = .done (d', (i' : Int)) ∧
        Settled (src.reverse ++ tail) len i' d' ∧ i ≤ i' ∧ i' ≤ len / 2 + 1 := by
  intro fuel
  induction fuel with
  | zero => intro i d _ _ h; omega
  | succ fuel ih =>
    intro i d hs hi hf
    unfold byte64_w64_loop
    by_cases hc : i + 64 ≤ len / 2
    · have hc' : (i : Int) ≤ ((len / 2 : Nat) : Int) - 64 := by omega
      obtain ⟨d1, h1, l1, p1⟩ := byte64_w64_block_spec src tail d len i hlen hs.1 hc
      rw [if_pos hc', h1]
      simp only [Run.bind]
      have hs1 : Settled (src.reverse ++ tail) len (i + 32) d1 := by
        refine ⟨l1, ?_⟩
        intro k hk
        rw [p1 k]
        split_ifs with hin
        · rfl
        · apply hs.2
          omega
      obtain ⟨i', d', h2, hs2, hle, hi'⟩ := ih (i + 32) d1 hs1 (by omega) (by omega)
      refine ⟨i', d', ?_, hs2, by omega, hi'⟩
      have e : (i : Int) + 32 = ((i + 32 : Nat) : Int) := by omega
      rw [e, h2]
    · have hc' : ¬ (i : Int) ≤ ((len / 2 : Nat) : Int) - 64 := by omega
      rw [if_neg hc']
      exact ⟨i, d, rfl, hs, Nat.le_refl _, hi⟩

theorem byte64_w64_eq (fuel : Nat) (dst src : List char) (len : Nat)
    (hlen : src.length = len) (hdst : len ≤ dst.length) (hfuel : len / 2 + 1 < fuel) :
    byte64_w64 fuel dst src len = .done (src.reverse ++ dst.drop len) := by
  unfold byte64_w64
  by_cases h0 : len = 0
  · subst h0
    have : src = [] := by simpa using hlen
    simp [this]
  · rw [if_pos h0]
    obtain ⟨i', d', h1, hs, _, hi'⟩ := byte64_w64_loop_done src (dst.drop len) len hlen fuel 0 dst
      (settled_init src dst len hlen hdst) (by omega) (by omega)
    have e : (0 : Int) = ((0 : Nat) : Int) := rfl
    simp only [e, h1, Run.bind]
    exact swap_loop_done src (dst.drop len) len hlen (by omega) fuel i' d' hs hi' (by omega)

/-- C24 (`obvious` reverses the string): for every `len`, every source of
`len` bytes and every destination of at least `len` bytes, the call returns,
every access is inside the arrays, `dst[i] = src[len-1-i]` for every `i < len`,
and the bytes of `dst` from offset `len` on are unchanged. -/
theorem obvious_reverses_string (fuel : Nat) (dst src : List char) (len : Nat)
    (hlen : src.length = len) (hdst : len ≤ dst.length) (hfuel : len / 2 + 1 < fuel) :
    ∃ r, obvious fuel dst src len = .done r ∧ r.length = dst.length ∧
      (∀ i, i < len → r[i]? = src[len - 1 - i]?) ∧ (∀ k, len ≤ k → r[k]? = dst[k]?) ∧
      r.take len = src.reverse := by
  refine ⟨_, obvious_eq fuel dst src len hlen hdst hfuel, ?_, ?_, ?_, ?_⟩
  · simp [hlen]; omega
  · intro i hi
    rw [← hlen]
    exact target_getElem src _ i (by omega)
  · intro k hk
    rw [List.getElem?_append_right (by simpa [hlen] using hk)]
    simp [hlen]
    congr 1; omega
  · rw [List.take_append_of_le_length (by simp [hlen])]
    rw [List.take_of_length_le (by simp [hlen])]

/-- Witness of C24: the four strings of the header comment, the last one with a
guard byte behind the destination. -/
theorem obvious_reverses_string_witness :
    obvious 3 [] [] 0 = .done [] ∧
    obvious 3 [0] [97] 1 = .done [97] ∧
    obvious 3 [0, 0] [97, 98] 2 = .done [98, 97] ∧
    obvious 3 [0, 0, 0, 127] [97, 98, 99] 3 = .done [99, 98, 97, 127] ∧
    ∃ r, obvious 3 [0, 0, 0, 127] [97, 98, 99] 3 = .done r ∧ r.length = 4 ∧
      (∀ i, i < 3 → r[i]? = [(97 : char), 98, 99][3 - 1 - i]?) ∧
      (∀ k, 3 ≤ k → r[k]? = [(0 : char), 0, 0, 127][k]?) ∧
      r.take 3 = [(97 : char), 98, 99].reverse :=
  ⟨by decide, by decide, by decide, by decide,
    obvious_reverses_string 3 [0, 0, 0, 127] [97, 98, 99] 3 (by decide) (by decide)
      (by decide)⟩

/-- C25 (`byte64_w64` against `obvious`): for every `len`, every source of
`len` bytes and every destination of at least `len` bytes, `byte64_w64` has the
same outcome as `obvious`: it returns, every access is inside the arrays, the
first `len` bytes of `dst` are the reversed source and the bytes from offset
`len` on are unchanged. -/
theorem byte64_w64_same_as_obvious (fuel : Nat) (dst src : List char) (len : Nat)
    (hlen : src.length = len) (hdst : len ≤ dst.length) (hfuel : len / 2 + 1 < fuel) :
    byte64_w64 fuel dst src len = obvious fuel dst src len ∧
    byte64_w64 fuel dst src len = .done (src.reverse ++ dst.drop len) := by
  rw [byte64_w64_eq fuel dst src len hlen hdst hfuel,
    obvious_eq fuel dst src len hlen hdst hfuel]
  exact ⟨rfl, rfl⟩

/-- Witness of C25: a string of 130 bytes, for which the unrolled loop runs,
and a destination with a guard byte. -/
theorem byte64_w64_same_as_obvious_witness :
    sample_src.length = 130 ∧ 130 ≤ sample_dst.length ∧
    byte64_w64 67 sample_dst sample_src 130 = obvious 67 sample_dst sample_src 130 ∧
    byte64_w64 67 sample_dst sample_src 130
      = .done (sample_src.reverse ++ sample_dst.drop 130) :=
  ⟨by simp [sample_src], by simp [sample_dst],
    byte64_w64_same_as_obvious 67 sample_dst sample_src 130 (by simp [sample_src])
      (by simp [sample_dst]) (by decide)⟩

end Strrev

/-! # Properties of `abs.c` -/

namespace Abs

theorem xor_neg_one (x : Int) : Int.xor x (-1) = -x - 1 := by
  cases x with
  | ofNat n =>
    show Int.xor (Int.ofNat n) (Int.negSucc 0) = _
    simp [Int.xor, Int.negSucc_eq]
    omega
  | negSucc n =>
    show Int.xor (Int.negSucc n) (Int.negSucc 0) = _
    simp [Int.xor, Int.negSucc_eq]

theorem xor_zero_right (x : Int) : Int.xor x 0 = x := by
  cases x with
  | ofNat n =>
    show Int.xor (Int.ofNat n) (Int.ofNat 0) = _
    simp [Int.xor]
  | negSucc n =>
    show Int.xor (Int.negSucc n) (Int.ofNat 0) = _
    simp [Int.xor]

theorem shiftRight_31 (a : Int) : Int.shiftRight a 31 = a / 2147483648 := by
  show a >>> (31 : Nat) = _
  rw [Int.shiftRight_eq_div_pow]; norm_num

/-- C26 (`mask_abs`): for every `int` other than `INT_MIN`, `mask_abs(a)` equals
`naive_abs(a)`, which is the absolute value of `a`. -/
theorem mask_abs_eq_naive_abs (a : Int) (hmin : -2147483648 < a) (hmax : a ≤ 2147483647) :
    mask_abs a = naive_abs a ∧ naive_abs a = abs a := by
  have key : mask_abs a = abs a ∧ naive_abs a = abs a := by
    unfold mask_abs naive_abs wrap
    simp only [shiftRight_31]
    by_cases h : a < 0
    · have e : a / 2147483648 = -1 := by omega
      rw [e, xor_neg_one, abs_of_neg h]
      simp [h]
      omega
    · have e : a / 2147483648 = 0 := by omega
      rw [e, abs_of_nonneg (by omega), xor_zero_right]
      simp [h]
      omega
  exact ⟨key.1.trans key.2.symm, key.2⟩

/-- Witness of C26: the values of `test`, and the theorem at `-5`. -/
theorem mask_abs_eq_naive_abs_witness :
    mask_abs 0 = 0 ∧ mask_abs 1 = 1 ∧ mask_abs (-1) = 1 ∧ mask_abs (-5) = 5 ∧
    mask_abs 5 = 5 ∧ mask_abs (-2147483647) = 2147483647 ∧
    (-2147483648 : Int) < -5 ∧ (-5 : Int) ≤ 2147483647 ∧
    mask_abs (-5) = naive_abs (-5) ∧ naive_abs (-5) = abs (-5) :=
  ⟨by decide, by decide, by decide, by decide, by decide, by decide, by decide, by decide,
    mask_abs_eq_naive_abs (-5) (by decide) (by decide)⟩

end Abs

/-! # Properties of `minmax.c` -/

namespace Minmax

/-- The pair read from `x[0]` and `x[3]` at the end of `nonbranching`. -/
theorem nonbranching_loop_sim (n : List Int) (len : Nat) :
    ∀ (fuel i : Nat) (x0 x1 x2 x3 : Int),
      ((nonbranching_loop n len fuel i [x0, x1, x2, x3]).bind fun x =>
        (Run.load x 0).bind fun a => (Run.load x 3).bind fun b => .done (a, b))
      = obvious_loop n len fuel i x0 x3 := by
  intro fuel
  induction fuel with
  | zero => intro i x0 x1 x2 x3; rfl
  | succ fuel ih =>
    intro i x0 x1 x2 x3
    by_cases hi : i < len
    · cases hn : n[i]? with
      | none =>
        rw [nonbranching_loop, obvious_loop, if_pos hi, if_pos hi, Run.load_cast, hn]
        rfl
      | some ni =>
        have step : ∃ y1 y2, nonbranching_loop n len (fuel + 1) i [x0, x1, x2, x3] =
            nonbranching_loop n len fuel ((i + 1) % UINT_MOD)
              [if ni < x0 then ni else x0, y1, y2, if ni > x3 then ni else x3] := by
          rw [nonbranching_loop]
          by_cases h3 : ni > x3 <;> by_cases h0 : ni < x0 <;>
            simp [Run.load, Run.store, Run.bind, hi, hn, h3, h0] <;>
            exact ⟨_, _, rfl⟩
        obtain ⟨y1, y2, step⟩ := step
        rw [step, ih, obvious_loop, if_pos hi, Run.load_cast, hn]
        simp only [Run.bind]
    · rw [nonbranching_loop, obvious_loop, if_neg hi, if_neg hi]
      simp [Run.load, Run.bind]

theorem nonbranching_eq_obvious (fuel : Nat) (n : List Int) (len : Nat) (min max : Int) :
    nonbranching fuel n len min max = obvious fuel n len min max := by
  unfold nonbranching obvious
  by_cases h : len = 0
  · simp [h]
  · rw [if_pos h, if_pos h]
    cases h0 : Run.load n 0 with
    | done n0 => simp only [Run.bind]; exact nonbranching_loop_sim n len fuel 1 n0 n0 n0 n0
    | bad_access => rfl
    | out_of_fuel => rfl

theorem obvious_loop_done (n : List Int) (len : Nat) (hlen : n.length = len)
    (hsmall : len < UINT_MOD) :
    ∀ (fuel i : Nat) (mn ax : Int), i ≤ len → IsMinMax (n.take i) (mn, ax) → len - i < fuel →
      ∃ r, obvious_loop n len fuel i mn ax = .done r ∧ IsMinMax n r := by
  intro fuel
  induction fuel with
  | zero => intro i mn ax _ _ h; omega
  | succ fuel ih =>
    intro i mn ax hi hm hf
    unfold obvious_loop
    by_cases hc : i < len
    · have hx : n[i]? = some n[i] := List.getElem?_eq_getElem (by omega)
      have hmod : (i + 1) % UINT_MOD = i + 1 := Nat.mod_eq_of_lt (by omega)
      rw [if_pos hc, Run.load_cast, hx]
      simp only [Run.bind, hmod]
      apply ih (i + 1) _ _ (by omega) _ (by omega)
      obtain ⟨h1, h2, h3⟩ := hm
      simp only at h1 h2 h3
      have ht : n.take (i + 1) = n.take i ++ [n[i]] := by
        rw [List.take_succ, hx]; rfl
      rw [ht]
      refine ⟨?_, ?_, ?_⟩
      · simp only [List.mem_append, List.mem_singleton]
        split
        · right; rfl
        · left; exact h1
      · simp only [List.mem_append, List.mem_singleton]
        split
        · right; rfl
        · left; exact h2
      · intro y hy
        simp only [List.mem_append, List.mem_singleton] at hy
        rcases hy with hy | hy
        · have := h3 y hy
          constructor
          · split <;> omega
          · split <;> omega
        · subst hy
          have := h3 mn h1
          have := h3 ax h2
          constructor
          · split <;> omega
          · split <;> omega
    · rw [if_neg hc]
      have : i = len := by omega
      subst this
      refine ⟨(mn, ax), rfl, ?_⟩
      rwa [← hlen, List.take_length] at hm

theorem obvious_minmax (fuel : Nat) (n : List Int) (len : Nat) (min max : Int)
    (hlen : n.length = len) (hpos : len ≠ 0) (hsmall : len < UINT_MOD) (hfuel : len ≤ fuel) :
    ∃ r, obvious fuel n len min max = .done r ∧ IsMinMax n r := by
  unfold obvious
  have h0 : n[0]? = some n[0] := List.getElem?_eq_getElem (by omega)
  have e : (0 : Int) = ((0 : Nat) : Int) := rfl
  rw [if_pos hpos, e, Run.load_cast, h0]
  simp only [Run.bind]
  apply obvious_loop_done n len hlen hsmall fuel 1 _ _ (by omega) _ (by omega)
  have : n.take 1 = [n[0]] := by
    rw [List.take_succ, h0]; rfl
  rw [this]
  simp [IsMinMax]

theorem obvious_loop_forever (n : List Int) (len : Nat) (hlen : n.length = len)
    (hbig : UINT_MOD ≤ len) :
    ∀ (fuel i : Nat) (mn ax : Int), i < UINT_MOD →
      obvious_loop n len fuel i mn ax = .out_of_fuel := by
  intro fuel
  induction fuel with
  | zero => intro i mn ax _; rfl
  | succ fuel ih =>
    intro i mn ax hi
    unfold obvious_loop
    have hc : i < len := by omega
    have hx : n[i]? = some n[i] := List.getElem?_eq_getElem (by omega)
    rw [if_pos hc, Run.load_cast, hx]
    simp only [Run.bind]
    exact ih _ _ _ (Nat.mod_lt _ (by unfold UINT_MOD; omega))

theorem obvious_forever (fuel : Nat) (n : List Int) (len : Nat) (min max : Int)
    (hlen : n.length = len) (hbig : UINT_MOD ≤ len) :
    obvious fuel n len min max = .out_of_fuel := by
  unfold obvious
  have hpos : len ≠ 0 := by unfold UINT_MOD at hbig; omega
  have h0 : n[0]? = some n[0] := List.getElem?_eq_getElem (by omega)
  have e : (0 : Int) = ((0 : Nat) : Int) := rfl
  rw [if_pos hpos, e, Run.load_cast, h0]
  simp only [Run.bind]
  exact obvious_loop_forever n len hlen hbig fuel 1 _ _ (by unfold UINT_MOD; omega)

/-- C27 as stated fails for an array of `2 ^ 32` elements: the counter `i` is
an `unsigned` and never reaches `len`, so `nonbranching` does not return,
whatever the bound on the number of iterations. -/
theorem nonbranching_never_returns_on_huge_array :
    ¬ ∃ fuel r,
      nonbranching fuel (List.replicate 4294967296 0) 4294967296 0 0 = .done r := by
  rintro ⟨fuel, r, h⟩
  rw [nonbranching_eq_obvious,
    obvious_forever fuel _ 4294967296 0 0 (List.length_replicate _ _) (Nat.le_refl _)] at h
  cases h

/-- C27 (amended): `nonbranching` has the same outcome as `obvious`; for an
array of `len` elements with `0 < len < 2 ^ 32` both return the minimum and the
maximum of the elements; for `len = 0` both leave `*min` and `*max` as they
were. -/
theorem nonbranching_minmax (fuel : Nat) (n : List Int) (len : Nat) (min max : Int)
    (hlen : n.length = len) (hsmall : len < UINT_MOD) (hfuel : len ≤ fuel) :
    nonbranching fuel n len min max = obvious fuel n len min max ∧
    (len ≠ 0 → ∃ r, nonbranching fuel n len min max = .done r ∧ IsMinMax n r) ∧
    (len = 0 → nonbranching fuel n len min max = .done (min, max) ∧
      obvious fuel n len min max = .done (min, max)) := by
  refine ⟨nonbranching_eq_obvious fuel n len min max, ?_, ?_⟩
  · intro hpos
    rw [nonbranching_eq_obvious]
    exact obvious_minmax fuel n len min max hlen hpos hsmall hfuel
  · intro h0
    simp [nonbranching, obvious, h0]

/-- Witness of C27 (amended): the array of `main`, and the empty array. -/
theorem nonbranching_minmax_witness :
    [(-1 : Int), 2, 6, 0].length = 4 ∧ 4 < UINT_MOD ∧
    nonbranching 4 [-1, 2, 6, 0] 4 7 7 = obvious 4 [-1, 2, 6, 0] 4 7 7 ∧
    nonbranching 4 [-1, 2, 6, 0] 4 7 7 = .done (-1, 6) ∧
    (∃ r, nonbranching 4 [-1, 2, 6, 0] 4 7 7 = .done r ∧ IsMinMax [-1, 2, 6, 0] r) ∧
    nonbranching 4 [] 0 7 7 = .done (7, 7) ∧ obvious 4 [] 0 7 7 = .done (7, 7) :=
  ⟨by decide, by decide,
    (nonbranching_minmax 4 [-1, 2, 6, 0] 4 7 7 (by decide) (by decide) (by decide)).1,
    by decide,
    (nonbranching_minmax 4 [-1, 2, 6, 0] 4 7 7 (by decide) (by decide) (by decide)).2.1
      (by decide),
    ((nonbranching_minmax 4 [] 0 7 7 (by decide) (by decide) (by decide)).2.2 rfl).1,
    ((nonbranching_minmax 4 [] 0 7 7 (by decide) (by decide) (by decide)).2.2 rfl).2⟩

end Minmax

/-! # Properties of `kate-trim-my-rtrim.c` -/

namespace Rtrim

/-- C28 (`rtrim` removes the trailing whitespace and nothing else), evaluated
on the strings of `main`.  For `"a "` the loop stops with `p` on the `a`, the
NUL is stored there and the result is the empty string, not `"a"`; for
`" a  "` the result is `" "`, not `" a"`.  For `" "` the loop ends with `p`
one before the array and the NUL is stored outside the array.  Strings
without trailing whitespace are returned unchanged. -/
theorem rtrim_cuts_last_character :
    rtrim 9 [97, 32, 0] = .done [0, 32, 0] ∧ cstr [0, 32, 0] = [] ∧
    rtrim 9 [32, 97, 32, 32, 0] = .done [32, 0, 32, 32, 0] ∧
    cstr [32, 0, 32, 32, 0] = [32] ∧
    rtrim 9 [32, 0] = .bad_access ∧
    rtrim 9 [97, 0] = .done [97, 0] ∧ rtrim 9 [0] = .done [0] := by
  decide

end Rtrim

/-! # Properties of `remchr.c` -/

namespace Remchr

theorem remchr_step (c : Int) (x : char) (fuel : Nat) (mem : List char) (i o : Nat)
    (hx : mem[i]? = some x) (hx0 : x ≠ 0) (ho : o < mem.length) :
    remchr c (fuel + 1) mem i o =
      remchr c fuel (mem.set o x) ((i + 1 : Nat) : Int)
        ((o + (if promote x ≠ c then 1 else 0) : Nat) : Int) := by
  have hx1 : (mem.set o x)[i]? = some x := by
    by_cases hoi : o = i
    · subst hoi; simp [List.getElem?_set_self ho]
    · rw [List.getElem?_set_ne hoi]; exact hx
  rw [remchr, Run.load_ofNat mem i x hx]
  simp only [Run.bind]
  rw [Run.store_ofNat mem o x ho]
  simp only [Run.bind]
  rw [if_pos hx0, Run.load_ofNat _ i x hx1]
  simp only [Run.bind]
  by_cases hxc : promote x = c
  · simp [hxc]
  · simp [hxc]

theorem remchr_last (c : Int) (fuel : Nat) (mem : List char) (i o : Nat)
    (hx : mem[i]? = some 0) (ho : o < mem.length) :
    remchr c (fuel + 1) mem i o = .done (mem.set o 0) := by
  rw [remchr, Run.load_ofNat mem i 0 hx]
  simp only [Run.bind]
  rw [Run.store_ofNat mem o 0 ho]
  simp [Run.bind]

theorem remchr_spec (c : Int) (p : char → Bool) (hp : ∀ x, p x = true ↔ promote x ≠ c)
    (s : List char) :
    ∀ (fuel : Nat) (mem : List char) (i o : Nat), StringAt mem i s →
      (o ≤ i ∨ i + s.length < o) → o + (s.filter p).length < mem.length →
      s.length < fuel →
      ∃ mem', remchr c fuel mem i o = .done mem' ∧ mem'.length = mem.length ∧
        StringAt mem' o (s.filter p) ∧
        ∀ k, (k < o ∨ o + (s.filter p).length < k) → mem'[k]? = mem[k]? := by
  induction s with
  | nil =>
    intro fuel mem i o hs hc hb hf
    obtain ⟨fuel, rfl⟩ : ∃ f, fuel = f + 1 := ⟨fuel - 1, by omega⟩
    have h0 : mem[i]? = some 0 := by simpa using hs.2.2
    have ho : o < mem.length := by simpa using hb
    refine ⟨mem.set o 0, remchr_last c fuel mem i o h0 ho, by simp,
      ⟨by simp, by simp, ?_⟩, ?_⟩
    · simp [List.getElem?_set_self ho]
    · intro k hk
      simp at hk
      rw [List.getElem?_set_ne (by omega)]
  | cons x s ih =>
    intro fuel mem i o hs hc hb hf
    rw [List.length_cons] at hc hf
    obtain ⟨fuel, rfl⟩ : ∃ f, fuel = f + 1 := ⟨fuel - 1, by omega⟩
    obtain ⟨hnz, hchars, hend⟩ := hs
    rw [List.length_cons] at hend
    have hx0 : x ≠ 0 := hnz x (by simp)
    have hx : mem[i]? = some x := by simpa using hchars 0 (by simp)
    have hs1 : ∀ o', o' < mem.length → (o' ≤ i ∨ i + (s.length + 1) < o') →
        StringAt (mem.set o' x) (i + 1) s := by
      intro o' _ hc'
      refine ⟨fun y hy => hnz y (by simp [hy]), ?_, ?_⟩
      · intro j hj
        rw [List.getElem?_set_ne (by omega)]
        have := hchars (j + 1) (by simp; omega)
        simpa [Nat.add_assoc, Nat.add_comm 1 j] using this
      · rw [List.getElem?_set_ne (by omega)]
        have := hend
        simpa [Nat.add_assoc, Nat.add_comm 1 s.length] using this
    by_cases hxc : promote x = c
    · -- the character is dropped: `out` stays
      have hpx : ¬ p x = true := by rw [hp]; simpa using hxc
      have hfc : List.filter p (x :: s) = List.filter p s := List.filter_cons_of_neg hpx
      rw [hfc] at hb ⊢
      have ho : o < mem.length := by omega
      obtain ⟨mem', h1, l1, st1, fr1⟩ := ih fuel (mem.set o x) (i + 1) o (hs1 o ho hc)
        (by omega) (by simpa using hb) (by omega)
      refine ⟨mem', ?_, by simpa using l1, st1, ?_⟩
      · rw [remchr_step c x fuel mem i o hx hx0 ho]
        simpa [hxc] using h1
      · intro k hk
        rw [fr1 k hk, List.getElem?_set_ne (by omega)]
    · -- the character is kept: `out` advances
      have hpx : p x = true := by rw [hp]; exact hxc
      have hfc : List.filter p (x :: s) = x :: List.filter p s := List.filter_cons_of_pos hpx
      rw [hfc] at hb ⊢
      rw [List.length_cons] at hb ⊢
      have ho : o < mem.length := by omega
      obtain ⟨mem', h1, l1, st1, fr1⟩ := ih fuel (mem.set o x) (i + 1) (o + 1) (hs1 o ho hc)
        (by omega) (by simp; omega) (by omega)
      refine ⟨mem', ?_, by simpa using l1, ?_, ?_⟩
      · rw [remchr_step c x fuel mem i o hx hx0 ho]
        simpa [hxc] using h1
      · obtain ⟨n1, c1, e1⟩ := st1
        refine ⟨?_, ?_, ?_⟩
        · intro y hy
          rcases List.mem_cons.1 hy with h | h
          · rw [h]; exact hx0
          · exact n1 y h
        · intro j hj
          cases j with
          | zero =>
            simp
            rw [fr1 o (by omega), List.getElem?_set_self ho]
          | succ j =>
            have := c1 j (by simp at hj; omega)
            simpa [Nat.add_assoc, Nat.add_comm 1 j] using this
        · have := e1
          simpa [Nat.add_assoc, Nat.add_comm 1] using this
      · intro k hk
        rw [fr1 k (by omega), List.getElem?_set_ne (by omega)]

/-- The promotion of `char` to `int` loses nothing: two characters with the
same value are the same character. -/
theorem promote_inj (x y : char) (h : promote x = promote y) : x = y := by
  unfold promote at h
  apply Fin.ext
  have hx := x.isLt
  have hy := y.isLt
  split at h <;> split at h <;> omega

/-- C29 (`remchr`): when the memory holds at `inp` a NUL-terminated string `s`
and `out` is at or before `inp` (in particular the same buffer) or lies behind
the string with room for the result, the call returns and the memory holds at
`out` the characters of `s` whose value differs from the `int c`, in order,
followed by a NUL; the memory before `out` and behind that NUL is unchanged.
When `c` is the value of a character `ch`, these are the characters of `s`
other than `ch`. -/
theorem remchr_removes (c : Int) (fuel : Nat) (mem : List char) (inp out : Nat)
    (s : List char) (hs : StringAt mem inp s)
    (hout : out ≤ inp ∨
      (inp + s.length < out ∧
        out + (s.filter (fun x => decide (promote x ≠ c))).length < mem.length))
    (hfuel : s.length < fuel) :
    (∃ mem', remchr c fuel mem inp out = .done mem' ∧ mem'.length = mem.length ∧
      StringAt mem' out (s.filter (fun x => decide (promote x ≠ c))) ∧
      ∀ k, (k < out ∨ out + (s.filter (fun x => decide (promote x ≠ c))).length < k) →
        mem'[k]? = mem[k]?) ∧
    ∀ ch : char, c = promote ch →
      s.filter (fun x => decide (promote x ≠ c)) = s.filter (fun x => x != ch) := by
  have hp : ∀ x : char, decide (promote x ≠ c) = true ↔ promote x ≠ c := by intro x; simp
  have hend : inp + s.length < mem.length := by
    have := hs.2.2
    by_contra hcon
    rw [List.getElem?_eq_none (by omega)] at this
    cases this
  have hle := List.length_filter_le (fun x => decide (promote x ≠ c)) s
  refine ⟨?_, ?_⟩
  · apply remchr_spec c (fun x => decide (promote x ≠ c)) hp s fuel mem inp out hs _ _ hfuel
    · rcases hout with h | h
      · exact Or.inl h
      · exact Or.inr h.1
    · rcases hout with h | h
      · omega
      · exact h.2
  · intro ch hc
    apply List.filter_congr
    intro x _
    by_cases hx : x = ch
    · subst hx; simp [hc]
    · have hne : promote x ≠ c := fun h => hx (promote_inj x ch (h.trans hc))
      simp [hne, hx]

set_option maxRecDepth 4000 in
/-- Witness of C29: `A` removed from `ABA` in place, as in `main`, and from
`ABA` into a separate buffer behind it; the character with byte 200 has the
value -56, so it is removed by `c = -56` and not by `c = 200`. -/
theorem remchr_removes_witness :
    StringAt [65, 66, 65, 0] 0 [65, 66, 65] ∧
    ((∃ mem', remchr 65 4 [65, 66, 65, 0] 0 0 = .done mem' ∧ mem'.length = 4 ∧
        StringAt mem' 0 ([65, 66, 65].filter (fun x => decide (promote x ≠ 65))) ∧
        ∀ k, (k < 0 ∨
            0 + ([(65 : char), 66, 65].filter (fun x => decide (promote x ≠ 65))).length < k) →
          mem'[k]? = [(65 : char), 66, 65, 0][k]?) ∧
      ∀ ch : char, (65 : Int) = promote ch →
        [(65 : char), 66, 65].filter (fun x => decide (promote x ≠ 65))
          = [(65 : char), 66, 65].filter (fun x => x != ch)) ∧
    [(65 : char), 66, 65].filter (fun x => decide (promote x ≠ 65)) = [66] ∧
    remchr 65 4 [65, 66, 65, 0] 0 0 = .done [66, 0, 65, 0] ∧
    remchr 65 4 [65, 66, 65, 0, 9, 9, 9, 9] 0 4 = .done [65, 66, 65, 0, 66, 0, 9, 9] ∧
    remchr 65 4 [65, 65, 65, 0] 0 0 = .done [0, 65, 65, 0] ∧
    remchr 68 4 [65, 66, 67, 0] 0 0 = .done [65, 66, 67, 0] ∧
    promote 200 = -56 ∧
    remchr (-56) 4 [65, 200, 66, 0] 0 0 = .done [65, 66, 0, 0] ∧
    remchr 200 4 [65, 200, 66, 0] 0 0 = .done [65, 200, 66, 0] :=
  ⟨by decide,
    remchr_removes 65 4 [65, 66, 65, 0] 0 0 [65, 66, 65] (by decide) (Or.inl (by decide))
      (by decide),
    by decide, by decide, by decide, by decide, by decide, by decide, by decide, by decide⟩

end Remchr

/-! # Properties of `trie1.c` -/

namespace Trie

/-- C30 (`trie_find` accepts only the empty string and the strings added),
evaluated after `trie_add` of `a` and `ab` on a new trie: `trie_find` returns 1
for `abb`, which was never added.  The end of every string is the top node,
and adding `ab` behind `a` made the node of `b` the `next` of the top node, so
after `ab` the search goes on from `b` again.  The strings of `main`
(`he`, `hell`) give the same for `hellll`. -/
theorem trie_find_accepts_unadded :
    trie_of 9 [[97], [97, 98]] = .done
      [⟨0, some 2, some 1⟩, ⟨97, none, some 0⟩, ⟨98, none, some 0⟩] ∧
    (trie_of 9 [[97], [97, 98]]).bind (fun h => trie_find 9 h 0 [97, 98, 98]) = .done 1 ∧
    (trie_of 9 [[97], [97, 98]]).bind (fun h => trie_find 9 h 0 [97, 98]) = .done 1 ∧
    (trie_of 9 [[104, 101], [104, 101, 108, 108]]).bind
      (fun h => trie_find 9 h 0 [104, 101, 108, 108, 108, 108]) = .done 1 := by
  decide

/-- C31 (`trie_del` returns non-zero only for a complete entry of the trie),
evaluated after `trie_add` of `tea` on a new trie: `trie_del` returns 1 for
the proper prefixes `te` and `t`, which are no entries (`trie_find` returns 0
for `te`), and leaves the trie as it was.  The end of the string is reached
with `return 1` without a look at the node, where `trie_find` tests
`t && !t->c`.  For an entry the value is as the test of `main` asserts: with
`tea`, `ted` and `ten` added, deleting `ten` returns 1 and then 0. -/
theorem trie_del_accepts_prefix :
    trie_of 9 [[116, 101, 97]] = .done
      [⟨0, none, some 1⟩, ⟨116, none, some 2⟩, ⟨101, none, some 3⟩, ⟨97, none, some 0⟩] ∧
    (trie_of 9 [[116, 101, 97]]).bind (fun h => trie_find 9 h 0 [116, 101]) = .done 0 ∧
    (trie_of 9 [[116, 101, 97]]).bind (fun h => trie_del 9 h 0 [116, 101]) = .done
      ([⟨0, none, some 1⟩, ⟨116, none, some 2⟩, ⟨101, none, some 3⟩, ⟨97, none, some 0⟩], 1) ∧
    (trie_of 9 [[116, 101, 97]]).bind (fun h => trie_del 9 h 0 [116]) = .done
      ([⟨0, none, some 1⟩, ⟨116, none, some 2⟩, ⟨101, none, some 3⟩, ⟨97, none, some 0⟩], 1) ∧
    (trie_of 9 [[116, 101, 97], [116, 101, 100], [116, 101, 110]]).bind
      (fun h => (trie_del 9 h 0 [116, 101, 110]).bind fun r => .done r.2) = .done 1 ∧
    (trie_of 9 [[116, 101, 97], [116, 101, 100], [116, 101, 110]]).bind
      (fun h => (trie_del 9 h 0 [116, 101, 110]).bind fun r =>
        (trie_del 9 r.1 0 [116, 101, 110]).bind fun r1 => .done r1.2) = .done 0 := by
  decide

end Trie

/-! # Properties of `grid_pop_bench.c` -/

namespace Grid

/-- A byte of `r & m` is the `&` of the bytes of `r` and `m`. -/
theorem and_byte (r m j : Nat) : byte_of (r &&& m) j = byte_of r j &&& byte_of m j := by
  unfold byte_of
  have h256 : (256 : Nat) ^ j = 2 ^ (8 * j) := by rw [pow_mul]; norm_num
  have e : ∀ x : Nat, x / 256 ^ j % 256 = (x >>> (8 * j)) &&& (2 ^ 8 - 1) := by
    intro x
    rw [Nat.and_pow_two_sub_one_eq_mod, Nat.shiftRight_eq_div_pow, h256]
  rw [e, e, e]
  apply Nat.eq_of_testBit_eq
  intro i
  simp only [Nat.testBit_and, Nat.testBit_shiftRight]
  cases r.testBit (8 * j + i) <;> cases m.testBit (8 * j + i) <;> simp

/-- The four bytes of a word, with the powers of 256 written out. -/
theorem byte_of_eq (w : Nat) :
    byte_of w 0 = w % 256 ∧ byte_of w 1 = w / 256 % 256 ∧ byte_of w 2 = w / 65536 % 256 ∧
    byte_of w 3 = w / 16777216 % 256 := by
  unfold byte_of
  norm_num

/-- A 32-bit word is the sum of its four bytes. -/
theorem digits (A : Nat) (h : A < 4294967296) :
    A = byte_of A 0 + 256 * byte_of A 1 + 65536 * byte_of A 2 + 16777216 * byte_of A 3 := by
  obtain ⟨e0, e1, e2, e3⟩ := byte_of_eq A
  rw [e0, e1, e2, e3]
  omega

/-- The bytes of a word given by its four bytes. -/
theorem digit_of (s0 s1 s2 s3 : Nat) (h0 : s0 < 256) (h1 : s1 < 256) (h2 : s2 < 256)
    (h3 : s3 < 128) (j : Nat) (hj : j < 4) :
    (s0 + 256 * s1 + 65536 * s2 + 16777216 * s3) % 2 ^ 32
      = s0 + 256 * s1 + 65536 * s2 + 16777216 * s3 ∧
    byte_of (s0 + 256 * s1 + 65536 * s2 + 16777216 * s3) j = [s0, s1, s2, s3].getD j 0 := by
  obtain ⟨e0, e1, e2, e3⟩ := byte_of_eq (s0 + 256 * s1 + 65536 * s2 + 16777216 * s3)
  refine ⟨Nat.mod_eq_of_lt (by norm_num; omega), ?_⟩
  have hj' : j = 0 ∨ j = 1 ∨ j = 2 ∨ j = 3 := by omega
  rcases hj' with rfl | rfl | rfl | rfl
  · rw [e0]; simp only [List.getD_cons_zero]; omega
  · rw [e1]; simp only [List.getD_cons_succ, List.getD_cons_zero]; omega
  · rw [e2]; simp only [List.getD_cons_succ, List.getD_cons_zero]; omega
  · rw [e3]; simp only [List.getD_cons_succ, List.getD_cons_zero]; omega

/-- Three words whose bytes are at most 15, 7 and 3 are added byte by byte:
no byte of the sum exceeds 25 and nothing is carried. -/
theorem sum3 (a0 a1 a2 a3 b0 b1 b2 b3 c0 c1 c2 c3 : Nat)
    (ha0 : a0 ≤ 15) (ha1 : a1 ≤ 15) (ha2 : a2 ≤ 15) (ha3 : a3 ≤ 15)
    (hb0 : b0 ≤ 7) (hb1 : b1 ≤ 7) (hb2 : b2 ≤ 7) (hb3 : b3 ≤ 7)
    (hc0 : c0 ≤ 3) (hc1 : c1 ≤ 3) (hc2 : c2 ≤ 3) (hc3 : c3 ≤ 3) (j : Nat) (hj : j < 4) :
    ((a0 + 256 * a1 + 65536 * a2 + 16777216 * a3)
      + (b0 + 256 * b1 + 65536 * b2 + 16777216 * b3)
      + (c0 + 256 * c1 + 65536 * c2 + 16777216 * c3)) % 2 ^ 32
      = (a0 + 256 * a1 + 65536 * a2 + 16777216 * a3)
      + (b0 + 256 * b1 + 65536 * b2 + 16777216 * b3)
      + (c0 + 256 * c1 + 65536 * c2 + 16777216 * c3) ∧
    (a0 + 256 * a1 + 65536 * a2 + 16777216 * a3)
      + (b0 + 256 * b1 + 65536 * b2 + 16777216 * b3)
      + (c0 + 256 * c1 + 65536 * c2 + 16777216 * c3) ≤ 0x19191919 ∧
    byte_of ((a0 + 256 * a1 + 65536 * a2 + 16777216 * a3)
      + (b0 + 256 * b1 + 65536 * b2 + 16777216 * b3)
      + (c0 + 256 * c1 + 65536 * c2 + 16777216 * c3)) j ≤ 25 := by
  have e : (a0 + 256 * a1 + 65536 * a2 + 16777216 * a3)
      + (b0 + 256 * b1 + 65536 * b2 + 16777216 * b3)
      + (c0 + 256 * c1 + 65536 * c2 + 16777216 * c3)
      = (a0 + b0 + c0) + 256 * (a1 + b1 + c1) + 65536 * (a2 + b2 + c2)
        + 16777216 * (a3 + b3 + c3) := by ring
  obtain ⟨d1, d2⟩ := digit_of (a0 + b0 + c0) (a1 + b1 + c1) (a2 + b2 + c2) (a3 + b3 + c3)
    (by omega) (by omega) (by omega) (by omega) j hj
  rw [e]
  refine ⟨d1, by omega, ?_⟩
  rw [d2]
  have hj' : j = 0 ∨ j = 1 ∨ j = 2 ∨ j = 3 := by omega
  rcases hj' with rfl | rfl | rfl | rfl <;>
    simp only [List.getD_cons_succ, List.getD_cons_zero] <;> omega

/-- The sum stored by `grid_pop_bits` fits an `int` and each of its bytes is at
most 25. -/
theorem pop_word_byte (r j : Nat) (hj : j < 4) :
    (r &&& 0x0f0f0f0f) + ((r >>> 4) &&& 0x07070707) + ((r >>> 3) &&& 0x03030303) = pop_word r ∧
    pop_word r ≤ 0x19191919 ∧ byte_of (pop_word r) j ≤ 25 := by
  have a := and_byte r 0x0f0f0f0f
  have b := and_byte (r >>> 4) 0x07070707
  have c := and_byte (r >>> 3) 0x03030303
  have la : ∀ x y : Nat, x = y &&& 15 → x ≤ 15 := fun x y h => h ▸ Nat.and_le_right
  have lb : ∀ x y : Nat, x = y &&& 7 → x ≤ 7 := fun x y h => h ▸ Nat.and_le_right
  have lc : ∀ x y : Nat, x = y &&& 3 → x ≤ 3 := fun x y h => h ▸ Nat.and_le_right
  have ua : r &&& 0x0f0f0f0f < 4294967296 :=
    Nat.lt_of_le_of_lt Nat.and_le_right (by norm_num)
  have ub : (r >>> 4) &&& 0x07070707 < 4294967296 :=
    Nat.lt_of_le_of_lt Nat.and_le_right (by norm_num)
  have uc : (r >>> 3) &&& 0x03030303 < 4294967296 :=
    Nat.lt_of_le_of_lt Nat.and_le_right (by norm_num)
  have m15 : ∀ j, j < 4 → byte_of 0x0f0f0f0f j = 15 := by
    intro j hj
    obtain ⟨e0, e1, e2, e3⟩ := byte_of_eq 0x0f0f0f0f
    have hj' : j = 0 ∨ j = 1 ∨ j = 2 ∨ j = 3 := by omega
    rcases hj' with rfl | rfl | rfl | rfl
    · rw [e0]
    · rw [e1]
    · rw [e2]
    · rw [e3]
  have m7 : ∀ j, j < 4 → byte_of 0x07070707 j = 7 := by
    intro j hj
    obtain ⟨e0, e1, e2, e3⟩ := byte_of_eq 0x07070707
    have hj' : j = 0 ∨ j = 1 ∨ j = 2 ∨ j = 3 := by omega
    rcases hj' with rfl | rfl | rfl | rfl
    · rw [e0]
    · rw [e1]
    · rw [e2]
    · rw [e3]
  have m3 : ∀ j, j < 4 → byte_of 0x03030303 j = 3 := by
    intro j hj
    obtain ⟨e0, e1, e2, e3⟩ := byte_of_eq 0x03030303
    have hj' : j = 0 ∨ j = 1 ∨ j = 2 ∨ j = 3 := by omega
    rcases hj' with rfl | rfl | rfl | rfl
    · rw [e0]
    · rw [e1]
    · rw [e2]
    · rw [e3]
  have ha : ∀ j, j < 4 → byte_of (r &&& 0x0f0f0f0f) j ≤ 15 := fun j hj =>
    la _ _ ((a j).trans (by rw [m15 j hj]))
  have hb : ∀ j, j < 4 → byte_of ((r >>> 4) &&& 0x07070707) j ≤ 7 := fun j hj =>
    lb _ _ ((b j).trans (by rw [m7 j hj]))
  have hc : ∀ j, j < 4 → byte_of ((r >>> 3) &&& 0x03030303) j ≤ 3 := fun j hj =>
    lc _ _ ((c j).trans (by rw [m3 j hj]))
  have key := sum3 _ _ _ _ _ _ _ _ _ _ _ _
    (ha 0 (by omega)) (ha 1 (by omega)) (ha 2 (by omega)) (ha 3 (by omega))
    (hb 0 (by omega)) (hb 1 (by omega)) (hb 2 (by omega)) (hb 3 (by omega))
    (hc 0 (by omega)) (hc 1 (by omega)) (hc 2 (by omega)) (hc 3 (by omega)) j hj
  rw [← digits _ ua, ← digits _ ub, ← digits _ uc] at key
  unfold pop_word
  obtain ⟨k1, k2, k3⟩ := key
  rw [k1]
  exact ⟨rfl, k2, k3⟩

/-- The counter `i` after `x + 1` passes of the loop. -/
theorem sub_sizeof_eq (x : Nat) (hx : x < 64) :
    sub_sizeof (256 - 4 * (x : Int)) = 256 - 4 * ((x + 1 : Nat) : Int) := by
  unfold sub_sizeof
  norm_num
  omega

/-- The store of a word changes its four cells and nothing before them. -/
theorem store_int_spec (g : List Nat) (x w : Nat) (hg : g.length = 256) (hx : x < 64) :
    ∃ g1, store_int g x w = .done g1 ∧ g1.length = 256 ∧
      (∀ j, j < 4 → g1[4 * x + j]? = some (byte_of w j)) ∧
      (∀ o, o < 4 * x → g1[o]? = g[o]?) := by
  have hin : 4 * x + 4 ≤ g.length := by omega
  refine ⟨g.take (4 * x) ++ [byte_of w 0, byte_of w 1, byte_of w 2, byte_of w 3]
    ++ g.drop (4 * x + 4), by simp only [store_int, hin, if_true], by simp; omega, ?_, ?_⟩
  · intro j hj
    have la : (g.take (4 * x)).length = 4 * x := by simp; omega
    rw [List.append_assoc, List.getElem?_append_right (by omega), la,
      List.getElem?_append_left (by simp; omega)]
    have hj' : j = 0 ∨ j = 1 ∨ j = 2 ∨ j = 3 := by omega
    rcases hj' with rfl | rfl | rfl | rfl <;> simp
  · intro o ho
    rw [List.append_assoc, List.getElem?_append_left (by simp; omega),
      List.getElem?_take_of_lt ho]

/-- The loop of `grid_pop_bits` from word `x` on: it ends after word 63. -/
theorem pop_loop_done (rand : Nat → Nat) (n : Nat) :
    ∀ (fuel x : Nat) (g : List Nat), x + n = 64 → 0 < n → n ≤ fuel → g.length = 256 →
      (∀ k j, k < x → j < 4 → g[4 * k + j]? = some (byte_of (pop_word (rand k)) j)) →
      ∃ g1, pop_loop rand fuel x (256 - 4 * (x : Int)) g = .done (g1, 64) ∧ g1.length = 256 ∧
        ∀ k j, k < 64 → j < 4 → g1[4 * k + j]? = some (byte_of (pop_word (rand k)) j) := by
  induction n with
  | zero => intro _ _ _ _ h; omega
  | succ n ih =>
    intro fuel x g hx _ hf hg hfill
    obtain ⟨fuel, rfl⟩ : ∃ f, fuel = f + 1 := ⟨fuel - 1, by omega⟩
    obtain ⟨g1, hst, hl1, hnew, hold⟩ := store_int_spec g x (pop_word (rand x)) hg (by omega)
    have hfill1 : ∀ k j, k < x + 1 → j < 4 →
        g1[4 * k + j]? = some (byte_of (pop_word (rand k)) j) := by
      intro k j hk hj
      by_cases hkx : k = x
      · subst hkx; exact hnew j hj
      · rw [hold _ (by omega)]; exact hfill k j (by omega) hj
    unfold pop_loop
    simp only [hst, Run.bind, sub_sizeof_eq x (by omega)]
    by_cases hn : n = 0
    · have hx1 : x + 1 = 64 := by omega
      have hz : ¬ ((256 : Int) - 4 * ((x + 1 : Nat) : Int) ≠ 0) := by
        rw [hx1]; norm_num
      rw [if_neg hz, hx1]
      exact ⟨g1, rfl, hl1, fun k j hk hj => hfill1 k j (by omega) hj⟩
    · have hz : (256 : Int) - 4 * ((x + 1 : Nat) : Int) ≠ 0 := by
        have : x + 1 < 64 := by omega
        omega
      rw [if_pos hz]
      exact ih fuel (x + 1) g1 (by omega) (by omega) (by omega) hl1 hfill1

/-- C32 (each byte of the word written by `grid_pop_bits` is at most 25 and
the loop writes exactly 256 bytes): for every `r` from 0 to `RAND_MAX` the sum
does not overflow and each of its four bytes is at most 25; on a grid of
256 cells the loop ends after 64 words, cell `4 * k + j` holds byte `j` of the
word made from the value of call `k` of `rand()`, and every cell `c[i][j]` is
at most 25. -/
theorem grid_pop_bits_cells (rand : Nat → Nat) (fuel : Nat) (g : List Nat)
    (hg : g.length = GRID_SIZE * GRID_SIZE) (hf : 64 ≤ fuel) :
    (∀ r j, r ≤ 2147483647 → j < 4 →
      (r &&& 0x0f0f0f0f) + ((r >>> 4) &&& 0x07070707) + ((r >>> 3) &&& 0x03030303)
        = pop_word r ∧ pop_word r ≤ 2147483647 ∧ byte_of (pop_word r) j ≤ 25) ∧
    ∃ g1, grid_pop_bits rand fuel g = .done (g1, 64) ∧ g1.length = GRID_SIZE * GRID_SIZE ∧
      (∀ k j, k < 64 → j < 4 → g1[4 * k + j]? = some (byte_of (pop_word (rand k)) j)) ∧
      ∀ i j, i < GRID_SIZE → j < GRID_SIZE → ∃ c, g1[GRID_SIZE * i + j]? = some c ∧ c ≤ 25 := by
  have hg' : g.length = 256 := hg
  refine ⟨fun r j _ hj => ?_, ?_⟩
  · obtain ⟨h1, h2, h3⟩ := pop_word_byte r j hj
    exact ⟨h1, by omega, h3⟩
  · obtain ⟨g1, h1, h2, h3⟩ := pop_loop_done rand 64 fuel 0 g rfl (by omega) hf hg'
      (fun k j hk => by omega)
    refine ⟨g1, h1, h2, h3, ?_⟩
    intro i j hi hj
    unfold GRID_SIZE at hi hj ⊢
    have e : 16 * i + j = 4 * ((16 * i + j) / 4) + (16 * i + j) % 4 := by omega
    rw [e, h3 _ _ (by omega) (by omega)]
    exact ⟨_, rfl, (pop_word_byte _ _ (by omega)).2.2⟩

/-- Witness of C32: a grid of zeros (as `test` prepares it) and the values
`sample_rand`; `RAND_MAX` itself gives 25 in every byte. -/
theorem grid_pop_bits_cells_witness :
    (List.replicate 256 0).length = GRID_SIZE * GRID_SIZE ∧ 64 ≤ 64 ∧
    pop_word 2147483647 = 0x19191919 ∧ pop_word 0x7f7f7f70 = 0x19191909 ∧
    ∃ g1, grid_pop_bits sample_rand 64 (List.replicate 256 0) = .done (g1, 64) ∧
      g1.length = GRID_SIZE * GRID_SIZE ∧
      (∀ k j, k < 64 → j < 4 → g1[4 * k + j]? = some (byte_of (pop_word (sample_rand k)) j)) ∧
      ∀ i j, i < GRID_SIZE → j < GRID_SIZE → ∃ c, g1[GRID_SIZE * i + j]? = some c ∧ c ≤ 25 :=
  ⟨List.length_replicate _ _, by decide, by decide, by decide,
    (grid_pop_bits_cells sample_rand 64 (List.replicate 256 0) (List.length_replicate _ _)
      (by decide)).2⟩

end Grid
